import Mathlib

/-!
Verification of the graph-construction and network-crawling core of the
WhatAnimeShouldIWatch pipeline.

The TypeScript sources are shallowly embedded:
* JavaScript numbers that carry rating scores and edge weights are modelled
  as exact rationals.
* JavaScript strings are Lean strings; the string operations used by the
  source (slice, startsWith, trim, toLowerCase, split, template literals)
  are modelled character-wise on the underlying character list.
* A JavaScript Map in insertion order is modelled as an association list:
  set replaces in place when the key is present and appends otherwise,
  get returns the first (unique) match.
-/

namespace WASIW

/-- Model of the JavaScript string method startsWith. -/
def jsStartsWith (s p : String) : Bool :=
  p.data.isPrefixOf s.data

/-- Model of the JavaScript string method slice(n) (drop the first n
characters). -/
def jsSliceFrom (s : String) (n : Nat) : String :=
  ⟨s.data.drop n⟩

/-- Model of the JavaScript string method slice(0, n) (take the first n
characters). -/
def jsSliceTo (s : String) (n : Nat) : String :=
  ⟨s.data.take n⟩

/-- The decimal digit character for a value below ten. -/
def digitChar (d : Nat) : Char :=
  match d with
  | 0 => '0' | 1 => '1' | 2 => '2' | 3 => '3' | 4 => '4'
  | 5 => '5' | 6 => '6' | 7 => '7' | 8 => '8' | _ => '9'

/-- Decimal digits of a natural number, least significant first; empty for 0. -/
def natDigitsRev (n : Nat) : List Nat :=
  if h : n = 0 then [] else n % 10 :: natDigitsRev (n / 10)
decreasing_by exact Nat.div_lt_self (Nat.pos_of_ne_zero h) (by norm_num)

/-- Decimal digits of a natural number, most significant first. -/
def natDigits (n : Nat) : List Nat :=
  if n = 0 then [0] else (natDigitsRev n).reverse

/-- The decimal string of a natural number, as a JavaScript template literal
renders it. -/
def natToString (n : Nat) : String :=
  ⟨(natDigits n).map digitChar⟩

/-- The decimal string of an integer, as a JavaScript template literal
renders it. -/
def intToString (i : Int) : String :=
  if i < 0 then "-" ++ natToString i.natAbs else natToString i.toNat

/-- Value of a list of decimal digit characters, most significant first. -/
def digitsVal (l : List Char) : Nat :=
  l.foldl (fun a c => 10 * a + (c.toNat - 48)) 0

/-- Parse a maximal leading run of decimal digits; none when there is no
digit, matching parseInt returning NaN. -/
def parseDigitRun (l : List Char) : Option Nat :=
  let ds := l.takeWhile Char.isDigit
  if ds.isEmpty then none else some (digitsVal ds)

/-- Model of JavaScript Number.parseInt(s, 10): skip leading whitespace, an
optional sign, then a maximal run of decimal digits; none models NaN. -/
def jsParseIntDec (s : String) : Option Int :=
  let cs := s.data.dropWhile Char.isWhitespace
  match cs with
  | [] => none
  | c :: rest =>
    if c = '-' then (parseDigitRun rest).map (fun v => -(v : Int))
    else if c = '+' then (parseDigitRun rest).map (fun v => (v : Int))
    else (parseDigitRun cs).map (fun v => (v : Int))

/-- Model of the JavaScript string method split on a single separator
character: the list of chunks between occurrences of the separator. -/
def splitOnChar (sep : Char) : List Char → List (List Char)
  | [] => [[]]
  | c :: cs =>
    if c = sep then [] :: splitOnChar sep cs
    else
      match splitOnChar sep cs with
      | [] => [[c]]
      | p :: ps => (c :: p) :: ps

/-- Association-list get, the model of JavaScript Map.get. -/
def alGet {β : Type} (m : List (String × β)) (k : String) : Option β :=
  (m.find? (fun p => p.1 = k)).map (fun p => p.2)

/-- Association-list set, the model of JavaScript Map.set: replace in place
when the key is present, append otherwise. -/
def alSet {β : Type} (m : List (String × β)) (k : String) (v : β) :
    List (String × β) :=
  if m.any (fun p => p.1 = k) then
    m.map (fun p => if p.1 = k then (k, v) else p)
  else m ++ [(k, v)]

/-- Keys of an association list paired with their positions, starting at a
given index. -/
def idxFrom (start : Nat) : List String → List (String × Nat)
  | [] => []
  | k :: ks => (k, start) :: idxFrom (start + 1) ks

/-! ## Data model (types.ts) -/

/-- One rating of the anonymized dataset fed to createGraph; scores are
modelled as exact rationals. -/
structure Rating where
  animeId : Nat
  title : String
  rawScore : ℚ
  normalizedScore : ℚ
deriving DecidableEq

/-- One user of the anonymized dataset. -/
structure UserRatings where
  userId : String
  ratings : List Rating
deriving DecidableEq

/-- A node of the full-form graph (types.ts GraphNode). -/
structure GraphNode where
  id : String
  label : String
  nodeType : String
deriving DecidableEq

/-- An edge of the full-form graph (types.ts GraphEdge). -/
structure GraphEdge where
  id : String
  source : String
  target : String
  edgeType : String
  weight : ℚ
deriving DecidableEq

/-- The full-form graph (types.ts GraphData). -/
structure GraphData where
  generatedAt : String
  nodeCount : Nat
  edgeCount : Nat
  userCount : Nat
  animeCount : Nat
  nodes : List GraphNode
  edges : List GraphEdge
deriving DecidableEq

/-- The compact graph (types.ts CompactGraphData): anime ids are kept as
parsed JavaScript numbers, hence integers here. -/
structure CompactGraphData where
  format : String
  generatedAt : String
  userIds : List String
  anime : List (Int × String)
  ua : List (Nat × Nat × ℚ)
  aa : List (Nat × Nat × ℚ)
  userCount : Nat
  animeCount : Nat
  nodeCount : Nat
  edgeCount : Nat
deriving DecidableEq

/-! ## Graph builder (build-graph.ts createGraph) -/

/-- Model of roundWeight: Number(value.toFixed(4)), rounding to four decimal
places. -/
def roundWeight (v : ℚ) : ℚ :=
  (Rat.floor (v * 10000 + 1 / 2) : ℚ) / 10000

/-- The running item-item pair aggregation state of createGraph: the
insertion-ordered pair-key map animePairEdgeWeights and the counter
skippedNewAnimeAnimePairs. -/
structure PairState where
  weights : List (String × ℚ)
  skipped : Nat
deriving DecidableEq

/-- The canonical unordered pair key of two anime ids, the template literal
low:high with low = min and high = max. -/
def pairKey (a b : Nat) : String :=
  natToString (min a b) ++ ":" ++ natToString (max a b)

/-- The contribution of one user to one pair of rated anime:
(left.normalizedScore + right.normalizedScore) / 2. -/
def pairScore (l r : Rating) : ℚ :=
  (l.normalizedScore + r.normalizedScore) / 2

/-- One pair-map update of createGraph: look the key up; a brand-new key is
skipped (counter incremented) when a nonzero cap is already reached,
otherwise the running weight becomes the score on first sight and the
halfway blend (current + score) / 2 afterwards. -/
def pairUpdate (cap : Nat) (st : PairState) (k : String) (score : ℚ) :
    PairState :=
  match alGet st.weights k with
  | none =>
    if 0 < cap ∧ cap ≤ st.weights.length then
      { st with skipped := st.skipped + 1 }
    else
      { st with weights := alSet st.weights k score }
  | some w =>
    { st with weights := alSet st.weights k ((w + score) / 2) }

/-- The (key, score) contributions generated by the nested i < j loop of
createGraph over one user's (truncated) rating list, in loop order. -/
def userPairContribs : List Rating → List (String × ℚ)
  | [] => []
  | l :: rest =>
    rest.map (fun r => (pairKey l.animeId r.animeId, pairScore l r))
      ++ userPairContribs rest

/-- The per-user rating truncation of createGraph: slice(0, maxRatingsPerUser)
when the cap is nonzero, the whole list otherwise. -/
def truncRatings (maxRatingsPerUser : Nat) (rs : List Rating) : List Rating :=
  if 0 < maxRatingsPerUser then rs.take maxRatingsPerUser else rs

/-- The mutable state threaded through createGraph's user loop: the node map
(insertion-ordered, models the nodes Map), the user-anime edges pushed so
far, and the pair aggregation state. -/
structure BuildState where
  nodes : List GraphNode
  edges : List GraphEdge
  pairs : PairState
deriving DecidableEq

/-- Model of nodes.set for the user node: replace in place when the id is
present, append otherwise. -/
def setNode (ns : List GraphNode) (n : GraphNode) : List GraphNode :=
  if ns.any (fun m => m.id = n.id) then
    ns.map (fun m => if m.id = n.id then n else m)
  else ns ++ [n]

/-- The body of createGraph's inner rating loop: ensure the anime node
exists (first sight keeps the title) and push the user-anime edge. -/
def addRating (uid : String) (acc : List GraphNode × List GraphEdge)
    (r : Rating) : List GraphNode × List GraphEdge :=
  let animeNodeId := "anime:" ++ natToString r.animeId
  let ns :=
    if acc.1.any (fun m => m.id = animeNodeId) then acc.1
    else acc.1 ++ [⟨animeNodeId, r.title, "anime"⟩]
  (ns, acc.2 ++
    [⟨"ua:" ++ uid ++ ":" ++ natToString r.animeId,
      "user:" ++ uid, animeNodeId, "user-anime",
      roundWeight r.normalizedScore⟩])

/-- One iteration of createGraph's user loop. -/
def processUser (mrpu cap : Nat) (st : BuildState) (user : UserRatings) :
    BuildState :=
  let uid := user.userId
  let nodes1 := setNode st.nodes
    ⟨"user:" ++ uid, "User " ++ jsSliceTo uid 8, "user"⟩
  let rs := truncRatings mrpu user.ratings
  let ne := rs.foldl (addRating uid) (nodes1, st.edges)
  let pairs2 := (userPairContribs rs).foldl
    (fun p c => pairUpdate cap p c.1 c.2) st.pairs
  ⟨ne.1, ne.2, pairs2⟩

/-- The item-item edge emitted for one retained pair key, reconstructing the
two anime ids by splitting the key on the colon as the source does. -/
def mkAAEdge (k : String) (w : ℚ) : GraphEdge :=
  let parts := splitOnChar ':' k.data
  let low : String := ⟨parts.getD 0 []⟩
  let high : String := ⟨parts.getD 1 []⟩
  ⟨"aa:" ++ k, "anime:" ++ low, "anime:" ++ high, "anime-anime",
    roundWeight w⟩

/-- Result of createGraph: the graph plus the out-of-band cap diagnostics. -/
structure GraphResult where
  graph : GraphData
  skippedNewAnimeAnimePairs : Nat
  maxAnimeAnimeEdges : Nat
deriving DecidableEq

/-- Model of createGraph (build-graph.ts): fold the user loop over the
dataset, append one anime-anime edge per retained pair key, and assemble the
graph with its counts. The generation timestamp is passed in. -/
def createGraph (gen : String) (users : List UserRatings)
    (mrpu cap : Nat) : GraphResult :=
  let st := users.foldl (processUser mrpu cap) ⟨[], [], ⟨[], 0⟩⟩
  let aaEdges := st.pairs.weights.map (fun p => mkAAEdge p.1 p.2)
  let edges := st.edges ++ aaEdges
  let userCount :=
    (st.nodes.filter (fun n => n.nodeType = "user")).length
  { graph :=
      { generatedAt := gen
        nodeCount := st.nodes.length
        edgeCount := edges.length
        userCount := userCount
        animeCount := st.nodes.length - userCount
        nodes := st.nodes
        edges := edges }
    skippedNewAnimeAnimePairs := st.pairs.skipped
    maxAnimeAnimeEdges := cap }

/-! ## Compact graph (build-graph.ts createCompactGraph) -/

/-- The node-pass accumulator of createCompactGraph: the user id and anime
tables under construction and the two node-id-to-index maps. -/
structure CompactAcc where
  userIds : List String
  anime : List (Int × String)
  userIdx : List (String × Nat)
  animeIdx : List (String × Nat)
deriving DecidableEq

/-- One iteration of createCompactGraph's node loop: a user node contributes
its stripped id and its index; any other node is parsed as an anime node and
skipped when the parsed id is not a finite number. -/
def compactNodeStep (acc : CompactAcc) (node : GraphNode) : CompactAcc :=
  if node.nodeType = "user" then
    let userId :=
      if jsStartsWith node.id "user:" then jsSliceFrom node.id 5 else node.id
    { acc with
        userIds := acc.userIds ++ [userId]
        userIdx := acc.userIdx ++ [(node.id, acc.userIds.length)] }
  else
    let animeIdValue :=
      if jsStartsWith node.id "anime:" then jsSliceFrom node.id 6 else node.id
    match jsParseIntDec animeIdValue with
    | none => acc
    | some animeId =>
      { acc with
          anime := acc.anime ++ [(animeId, node.label)]
          animeIdx := acc.animeIdx ++ [(node.id, acc.anime.length)] }

/-- One iteration of createCompactGraph's edge loop, appending to the ua or
aa tuple lists; edges whose endpoints do not resolve are dropped. -/
def compactEdgeStep (userIdx animeIdx : List (String × Nat))
    (acc : List (Nat × Nat × ℚ) × List (Nat × Nat × ℚ)) (e : GraphEdge) :
    List (Nat × Nat × ℚ) × List (Nat × Nat × ℚ) :=
  if e.edgeType = "user-anime" then
    let sourceUser := alGet userIdx e.source
    let targetAnime := alGet animeIdx e.target
    let sourceAnime := alGet animeIdx e.source
    let targetUser := alGet userIdx e.target
    match sourceUser, targetAnime with
    | some u, some a => (acc.1 ++ [(u, a, e.weight)], acc.2)
    | _, _ =>
      match targetUser, sourceAnime with
      | some u, some a => (acc.1 ++ [(u, a, e.weight)], acc.2)
      | _, _ => acc
  else
    match alGet animeIdx e.source, alGet animeIdx e.target with
    | some l, some r => (acc.1, acc.2 ++ [(l, r, e.weight)])
    | _, _ => acc

/-- Model of createCompactGraph (build-graph.ts): one pass over the nodes
building the index tables, then one pass over the edges building the ua and
aa tuple lists. -/
def createCompactGraph (g : GraphData) : CompactGraphData :=
  let acc := g.nodes.foldl compactNodeStep ⟨[], [], [], []⟩
  let es := g.edges.foldl (compactEdgeStep acc.userIdx acc.animeIdx) ([], [])
  { format := "graph-compact-v1"
    generatedAt := g.generatedAt
    userIds := acc.userIds
    anime := acc.anime
    ua := es.1
    aa := es.2
    userCount := acc.userIds.length
    animeCount := acc.anime.length
    nodeCount := acc.userIds.length + acc.anime.length
    edgeCount := es.1.length + es.2.length }

/-- The user node reconstructed from a compact user id, matching the node
createGraph builds. -/
def decodeUserNode (u : String) : GraphNode :=
  ⟨"user:" ++ u, "User " ++ jsSliceTo u 8, "user"⟩

/-- The anime node reconstructed from a compact anime table entry. -/
def decodeAnimeNode (p : Int × String) : GraphNode :=
  ⟨"anime:" ++ intToString p.1, p.2, "anime"⟩

/-- The user-anime edge reconstructed from a compact ua tuple. -/
def decodeUAEdge (c : CompactGraphData) (t : Nat × Nat × ℚ) : GraphEdge :=
  let u := c.userIds.getD t.1 ""
  let a := (c.anime.getD t.2.1 (0, "")).1
  ⟨"ua:" ++ u ++ ":" ++ intToString a, "user:" ++ u,
    "anime:" ++ intToString a, "user-anime", t.2.2⟩

/-- The anime-anime edge reconstructed from a compact aa tuple. -/
def decodeAAEdge (c : CompactGraphData) (t : Nat × Nat × ℚ) : GraphEdge :=
  let a := (c.anime.getD t.1 (0, "")).1
  let b := (c.anime.getD t.2.1 (0, "")).1
  ⟨"aa:" ++ intToString a ++ ":" ++ intToString b, "anime:" ++ intToString a,
    "anime:" ++ intToString b, "anime-anime", t.2.2⟩

/-- The inverse mapping of the compact encoding: rebuild the full-form graph
(node ids, labels and types, edge ids, endpoints, types and weights, and all
counts) from the compact tables. -/
def decompactGraph (c : CompactGraphData) : GraphData :=
  { generatedAt := c.generatedAt
    nodeCount := c.nodeCount
    edgeCount := c.edgeCount
    userCount := c.userCount
    animeCount := c.animeCount
    nodes := c.userIds.map decodeUserNode ++ c.anime.map decodeAnimeNode
    edges := c.ua.map (decodeUAEdge c) ++ c.aa.map (decodeAAEdge c) }

/-! ## Rating store (db.ts) -/

/-- One row of the ratings table. -/
structure RatingRow where
  userId : String
  animeId : Nat
  rawScore : ℚ
  normalizedScore : ℚ
deriving DecidableEq

/-- Model of the SQL AVG(raw_score) over one user's rating rows, with the
NULL-for-no-rows result coalesced to 0 as recomputeNormalizedScores does. -/
def avgRawScore (rows : List RatingRow) (u : String) : ℚ :=
  let xs := (rows.filter (fun r => r.userId = u)).map (fun r => r.rawScore)
  if xs.length = 0 then 0 else xs.sum / xs.length

/-- Model of the per-user UPDATE of recomputeNormalizedScores: every row of
the user gets normalized_score = raw_score - avg. -/
def applyUserNormalization (rows : List RatingRow) (u : String) :
    List RatingRow :=
  let avg := avgRawScore rows u
  rows.map (fun r =>
    if r.userId = u then { r with normalizedScore := r.rawScore - avg } else r)

/-- Model of recomputeNormalizedScores (db.ts): iterate the per-user update
over every user of the users table. -/
def recomputeNormalizedScores (users : List String) (rows : List RatingRow) :
    List RatingRow :=
  users.foldl applyUserNormalization rows

/-! ## Network crawler (expand-network) -/

/-- Model of username.trim(): strip leading and trailing whitespace. -/
def jsTrim (s : String) : String :=
  ⟨((s.data.dropWhile Char.isWhitespace).reverse.dropWhile
    Char.isWhitespace).reverse⟩

/-- Model of normalizeUsername: trim then lowercase. -/
def normalizeUsername (s : String) : String :=
  ⟨(jsTrim s).data.map Char.toLower⟩

/-- The crawl frontier: the FIFO queue and the two normalized-name sets,
modelled as lists with membership tests. -/
structure Frontier where
  queue : List String
  queued : List String
  processed : List String
deriving DecidableEq

/-- Model of enqueue (expand-network): refuse an empty normalized form and
any normalized form already queued or processed, otherwise push the trimmed
username and record the normalized form as queued. -/
def enqueue (username : String) (f : Frontier) : Frontier :=
  let n := normalizeUsername username
  if n = "" ∨ n ∈ f.queued ∨ n ∈ f.processed then f
  else
    { f with
        queue := f.queue ++ [jsTrim username]
        queued := n :: f.queued }

/-- One frontier operation: an enqueue of a username, or one dequeue
iteration of the crawl loop's frontier bookkeeping. -/
inductive CrawlOp where
  | enq (username : String)
  | deq
deriving DecidableEq

/-- One step over the frontier plus the record of usernames that actually
reached processing: a dequeue pops the head, removes its normalized form
from the queued set, skips silently when already processed, and otherwise
marks it processed immediately and records the processing attempt. -/
def crawlStep (st : Frontier × List String) (op : CrawlOp) :
    Frontier × List String :=
  match op with
  | CrawlOp.enq u => (enqueue u st.1, st.2)
  | CrawlOp.deq =>
    match st.1.queue with
    | [] => st
    | u :: rest =>
      let key := normalizeUsername u
      let f1 : Frontier :=
        { queue := rest
          queued := st.1.queued.filter (fun q => ¬ q = key)
          processed := st.1.processed }
      if key ∈ st.1.processed then (f1, st.2)
      else ({ f1 with processed := key :: f1.processed }, st.2 ++ [u])

/-- Run a sequence of frontier operations from the empty frontier. -/
def runCrawl (ops : List CrawlOp) : Frontier × List String :=
  ops.foldl crawlStep (⟨[], [], []⟩, [])

/-- A discovery seed: the anime id and raw score pair used to look up
recent-activity users. -/
structure DiscoveryRating where
  animeId : Nat
  rawScore : ℚ
deriving DecidableEq

/-- A scored MAL list entry (types.ts MalAnimeEntry). -/
structure MalAnimeEntry where
  anime_id : Nat
  anime_title : String
  score : ℚ
deriving DecidableEq

/-- Stable insertion of one element under the JavaScript sort comparator
(left, right) => right.rawScore - left.rawScore: the element goes after
every earlier element that compares less-or-equal. -/
def jsSortInsertDesc (x : DiscoveryRating) :
    List DiscoveryRating → List DiscoveryRating
  | [] => [x]
  | y :: ys =>
    if x.rawScore - y.rawScore ≤ 0 then y :: jsSortInsertDesc x ys
    else x :: y :: ys

/-- Model of Array.prototype.sort with the comparator
(left, right) => right.rawScore - left.rawScore: the stable sort by raw
score descending, realized as left-to-right stable insertion. -/
def jsSortDesc (l : List DiscoveryRating) : List DiscoveryRating :=
  l.foldl (fun acc x => jsSortInsertDesc x acc) []

/-- The discovery seeds derived for a freshly inserted user
(expand-network): map to (animeId, rawScore), sort by raw score descending,
slice to the fan-out. -/
def discoverySeedsFresh (ratings : List MalAnimeEntry) (fanout : Nat) :
    List DiscoveryRating :=
  (jsSortDesc (ratings.map (fun r => ⟨r.anime_id, r.score⟩))).take fanout

/-- Does row y come weakly before row x under the store query's ordering
ORDER BY raw_score DESC, anime_id ASC. -/
def sqlKeyLe (y x : DiscoveryRating) : Bool :=
  (x.rawScore < y.rawScore) ∨
    (x.rawScore = y.rawScore ∧ y.animeId ≤ x.animeId)

/-- Insertion of one element under the store query's ordering. -/
def sqlOrderInsert (x : DiscoveryRating) :
    List DiscoveryRating → List DiscoveryRating
  | [] => [x]
  | y :: ys =>
    if sqlKeyLe y x then y :: sqlOrderInsert x ys else x :: y :: ys

/-- The rows of the store sorted by the query's ordering. -/
def sqlOrderRows (l : List DiscoveryRating) : List DiscoveryRating :=
  l.foldl (fun acc x => sqlOrderInsert x acc) []

/-- Model of existingRatingsStmt (expand-network): the user's rows ordered
by raw_score DESC, anime_id ASC, limited to n. -/
def topNRatingsStore (rows : List DiscoveryRating) (n : Nat) :
    List DiscoveryRating :=
  (sqlOrderRows rows).take n

/-! ## Rating source client (mal.ts) -/

/-- Model of isRetryableStatus (mal.ts). -/
def isRetryableStatus (status : Nat) : Bool :=
  status = 405 ∨ status = 408 ∨ status = 429 ∨ 500 ≤ status

/-- Model of the backoff delay computed by fetchMalPage before a retry: a
valid retry-after header (parsed, clamped below by one second) takes
precedence over the exponential default min(1000 * 2 ^ attempt, 20000);
the random jitter of 0-349 ms is passed in. -/
def malRetryDelayMs (attempt : Nat) (retryAfterHeader : Option String)
    (jitterMs : Nat) : Int :=
  let retryAfterSeconds : Option Int :=
    match retryAfterHeader with
    | none => none
    | some h => jsParseIntDec h
  let baseBackoffMs : Int :=
    match retryAfterSeconds with
    | none => min (1000 * 2 ^ attempt) 20000
    | some s => max s 1 * 1000
  baseBackoffMs + jitterMs

/-! ## Identity anonymizer (anonymize.ts)

The source hashes with node's createHash("sha256"); SHA-256 is implemented
here over byte lists, words being naturals reduced mod 2^32. -/

/-- The SHA-256 word modulus 2^32. -/
def M32 : Nat := 4294967296

/-- Addition modulo 2^32. -/
def add32 (a b : Nat) : Nat := (a + b) % M32

/-- Right rotation of a 32-bit word. -/
def rotr32 (x n : Nat) : Nat := ((x >>> n) ||| (x <<< (32 - n))) % M32

/-- SHA-256 big sigma 0. -/
def bsig0 (x : Nat) : Nat := rotr32 x 2 ^^^ rotr32 x 13 ^^^ rotr32 x 22

/-- SHA-256 big sigma 1. -/
def bsig1 (x : Nat) : Nat := rotr32 x 6 ^^^ rotr32 x 11 ^^^ rotr32 x 25

/-- SHA-256 small sigma 0. -/
def ssig0 (x : Nat) : Nat := rotr32 x 7 ^^^ rotr32 x 18 ^^^ (x >>> 3)

/-- SHA-256 small sigma 1. -/
def ssig1 (x : Nat) : Nat := rotr32 x 17 ^^^ rotr32 x 19 ^^^ (x >>> 10)

/-- SHA-256 choice function; complement is taken within 32 bits. -/
def chf (x y z : Nat) : Nat := (x &&& y) ^^^ ((x ^^^ (M32 - 1)) &&& z)

/-- SHA-256 majority function. -/
def majf (x y z : Nat) : Nat := (x &&& y) ^^^ (x &&& z) ^^^ (y &&& z)

/-- The SHA-256 round constants. -/
def sha256K : List Nat :=
  [1116352408, 1899447441, 3049323471, 3921009573,
   961987163, 1508970993, 2453635748, 2870763221,
   3624381080, 310598401, 607225278, 1426881987,
   1925078388, 2162078206, 2614888103, 3248222580,
   3835390401, 4022224774, 264347078, 604807628,
   770255983, 1249150122, 1555081692, 1996064986,
   2554220882, 2821834349, 2952996808, 3210313671,
   3336571891, 3584528711, 113926993, 338241895,
   666307205, 773529912, 1294757372, 1396182291,
   1695183700, 1986661051, 2177026350, 2456956037,
   2730485921, 2820302411, 3259730800, 3345764771,
   3516065817, 3600352804, 4094571909, 275423344,
   430227734, 506948616, 659060556, 883997877,
   958139571, 1322822218, 1537002063, 1747873779,
   1955562222, 2024104815, 2227730452, 2361852424,
   2428436474, 2756734187, 3204031479, 3329325298]

/-- The eight SHA-256 working variables. -/
structure Hash8 where
  a : Nat
  b : Nat
  c : Nat
  d : Nat
  e : Nat
  f : Nat
  g : Nat
  h : Nat
deriving DecidableEq

/-- The SHA-256 initial hash value. -/
def sha256H0 : Hash8 :=
  ⟨1779033703, 3144134277, 1013904242, 2773480762,
   1359893119, 2600822924, 528734635, 1541459225⟩

/-- Extend a 16-word block to the 64-word message schedule. -/
def extendSchedule (block : List Nat) : List Nat :=
  (List.range 48).foldl
    (fun w _ =>
      let t := w.length
      w ++ [add32 (add32 (ssig1 (w.getD (t - 2) 0)) (w.getD (t - 7) 0))
        (add32 (ssig0 (w.getD (t - 15) 0)) (w.getD (t - 16) 0))])
    block

/-- One SHA-256 compression round, consuming a (constant, schedule word)
pair. -/
def compressStep (st : Hash8) (kw : Nat × Nat) : Hash8 :=
  let t1 := add32 st.h
    (add32 (bsig1 st.e) (add32 (chf st.e st.f st.g) (add32 kw.1 kw.2)))
  let t2 := add32 (bsig0 st.a) (majf st.a st.b st.c)
  ⟨add32 t1 t2, st.a, st.b, st.c, add32 st.d t1, st.e, st.f, st.g⟩

/-- Compress one 16-word block into the running hash. -/
def compressBlock (hv : Hash8) (block : List Nat) : Hash8 :=
  let w := extendSchedule block
  let st := (sha256K.zip w).foldl compressStep hv
  ⟨add32 hv.a st.a, add32 hv.b st.b, add32 hv.c st.c, add32 hv.d st.d,
   add32 hv.e st.e, add32 hv.f st.f, add32 hv.g st.g, add32 hv.h st.h⟩

/-- Group a byte list into 32-bit big-endian words. -/
def bytesToWords : List Nat → List Nat
  | b0 :: b1 :: b2 :: b3 :: rest =>
    (((b0 * 256 + b1) * 256 + b2) * 256 + b3) :: bytesToWords rest
  | _ => []

/-- Group a word list into 16-word blocks; a trailing short block (which
padding never produces) is kept as is. -/
def chunkWords : List Nat → List (List Nat)
  | w0 :: w1 :: w2 :: w3 :: w4 :: w5 :: w6 :: w7 ::
    w8 :: w9 :: w10 :: w11 :: w12 :: w13 :: w14 :: w15 :: rest =>
    [w0, w1, w2, w3, w4, w5, w6, w7,
     w8, w9, w10, w11, w12, w13, w14, w15] :: chunkWords rest
  | [] => []
  | ws => [ws]

/-- The eight big-endian bytes of the 64-bit message bit length. -/
def lengthBytes8 (n : Nat) : List Nat :=
  (List.range 8).map (fun i => n >>> ((7 - i) * 8) % 256)

/-- SHA-256 padding: append 0x80, zeros to 56 mod 64 bytes, then the
bit length. -/
def padMessage (msg : List Nat) : List Nat :=
  let L := msg.length
  let z := (119 - L % 64) % 64
  msg ++ [0x80] ++ List.replicate z 0 ++ lengthBytes8 (L * 8)

/-- The SHA-256 hash state of a byte message. -/
def sha256Words (msg : List Nat) : Hash8 :=
  (chunkWords (bytesToWords (padMessage msg))).foldl compressBlock sha256H0

/-- The lowercase hexadecimal character of a value below sixteen. -/
def hexChar (n : Nat) : Char :=
  match n with
  | 0 => '0' | 1 => '1' | 2 => '2' | 3 => '3' | 4 => '4'
  | 5 => '5' | 6 => '6' | 7 => '7' | 8 => '8' | 9 => '9'
  | 10 => 'a' | 11 => 'b' | 12 => 'c' | 13 => 'd' | 14 => 'e' | _ => 'f'

/-- The eight hexadecimal characters of a 32-bit word. -/
def wordToHex (w : Nat) : List Char :=
  [hexChar (w >>> 28 % 16), hexChar (w >>> 24 % 16), hexChar (w >>> 20 % 16),
   hexChar (w >>> 16 % 16), hexChar (w >>> 12 % 16), hexChar (w >>> 8 % 16),
   hexChar (w >>> 4 % 16), hexChar (w % 16)]

/-- The 64-character hexadecimal digest of a byte message. -/
def sha256Hex (msg : List Nat) : String :=
  let hv := sha256Words msg
  ⟨wordToHex hv.a ++ wordToHex hv.b ++ wordToHex hv.c ++ wordToHex hv.d ++
   wordToHex hv.e ++ wordToHex hv.f ++ wordToHex hv.g ++ wordToHex hv.h⟩

/-- UTF-8 bytes of one character, as node's hash update encodes strings. -/
def utf8Encode (c : Char) : List Nat :=
  let n := c.toNat
  if n < 0x80 then [n]
  else if n < 0x800 then
    [0xC0 ||| (n >>> 6), 0x80 ||| (n &&& 0x3F)]
  else if n < 0x10000 then
    [0xE0 ||| (n >>> 12), 0x80 ||| ((n >>> 6) &&& 0x3F), 0x80 ||| (n &&& 0x3F)]
  else
    [0xF0 ||| (n >>> 18), 0x80 ||| ((n >>> 12) &&& 0x3F),
     0x80 ||| ((n >>> 6) &&& 0x3F), 0x80 ||| (n &&& 0x3F)]

/-- UTF-8 bytes of a string. -/
def strBytes (s : String) : List Nat :=
  s.data.foldr (fun c acc => utf8Encode c ++ acc) []

/-- Model of anonymizeUsername (anonymize.ts): the 24-character hexadecimal
prefix of the SHA-256 digest of salt, a colon, and the trimmed lowercased
username. -/
def anonymizeUsername (username salt : String) : String :=
  jsSliceTo (sha256Hex (strBytes (salt ++ ":" ++ normalizeUsername username)))
    24

/-! ## Association-list lemmas -/

theorem alGet_nil {β : Type} (k : String) : alGet ([] : List (String × β)) k = none := rfl

theorem alGet_none_iff_any {β : Type} (m : List (String × β)) (k : String) :
    alGet m k = none ↔ m.any (fun p => p.1 = k) = false := by
  induction m with
  | nil => simp [alGet]
  | cons p m ih =>
    by_cases h : p.1 = k
    · simp [alGet, List.find?, h]
    · have e1 : alGet (p :: m) k = alGet m k := by
        simp [alGet, List.find?, h]
      have e2 : (p :: m).any (fun q => q.1 = k) = m.any (fun q => q.1 = k) := by
        simp [h]
      rw [e1, e2]
      exact ih

theorem alGet_alSet_self {β : Type} (m : List (String × β)) (k : String)
    (v : β) : alGet (alSet m k v) k = some v := by
  induction m with
  | nil => simp [alSet, alGet, List.find?]
  | cons p m ih =>
    by_cases h : p.1 = k
    · have hany : (p :: m).any (fun q => q.1 = k) = true := by
        simp [List.any_cons, h]
      simp only [alSet, hany, if_true, List.map_cons, h, if_true]
      simp [alGet, List.find?]
    · by_cases hm : m.any (fun q => q.1 = k)
      · have hany : (p :: m).any (fun q => q.1 = k) = true := by
          simp [List.any_cons, hm]
        have ihs : alGet (alSet m k v) k = some v := ih
        simp only [alSet, hany, if_true, List.map_cons, h, if_false]
        simp only [alSet, hm, if_true] at ihs
        simpa [alGet, List.find?, h] using ihs
      · have hany : (p :: m).any (fun q => q.1 = k) = false := by
          simp [List.any_cons, h, hm]
        have ihs : alGet (alSet m k v) k = some v := ih
        simp only [alSet, hany, Bool.false_eq_true, if_false, List.cons_append]
        simp only [alSet, hm, Bool.false_eq_true, if_false] at ihs
        simpa [alGet, List.find?, h] using ihs

theorem alSet_length_of_none {β : Type} (m : List (String × β)) (k : String)
    (v : β) (h : alGet m k = none) : (alSet m k v).length = m.length + 1 := by
  have hany := (alGet_none_iff_any m k).mp h
  simp [alSet, hany]

theorem alSet_length_of_some {β : Type} (m : List (String × β)) (k : String)
    (v w : β) (h : alGet m k = some w) : (alSet m k v).length = m.length := by
  have hany : m.any (fun p => p.1 = k) = true := by
    by_contra hc
    have : m.any (fun p => p.1 = k) = false := by
      cases hh : m.any (fun p => p.1 = k) with
      | true => exact absurd hh hc
      | false => rfl
    rw [(alGet_none_iff_any m k).mpr this] at h
    exact Option.noConfusion h
  simp [alSet, hany]

/-! ## C1: the halfway blend -/

theorem pairUpdate_first (cap : Nat) (st : PairState) (k : String) (s : ℚ)
    (hk : alGet st.weights k = none)
    (hcap : cap = 0 ∨ st.weights.length < cap) :
    pairUpdate cap st k s = { st with weights := alSet st.weights k s } := by
  have hno : ¬ (0 < cap ∧ cap ≤ st.weights.length) := by
    rcases hcap with h | h
    · omega
    · omega
  simp [pairUpdate, hk, hno]

theorem pairUpdate_again (cap : Nat) (st : PairState) (k : String) (s w : ℚ)
    (hk : alGet st.weights k = some w) :
    pairUpdate cap st k s =
      { st with weights := alSet st.weights k ((w + s) / 2) } := by
  simp [pairUpdate, hk]

/-! ## C2: the pair-edge cap -/

theorem pairUpdate_length_le (cap : Nat) (hcap : 0 < cap) (st : PairState)
    (k : String) (s : ℚ) (h : st.weights.length ≤ cap) :
    (pairUpdate cap st k s).weights.length ≤ cap := by
  cases hg : alGet st.weights k with
  | some w =>
    rw [pairUpdate_again cap st k s w hg]
    simpa [alSet_length_of_some st.weights k _ w hg] using h
  | none =>
    by_cases hfull : 0 < cap ∧ cap ≤ st.weights.length
    · simp only [pairUpdate, hg, hfull, if_true]
      simpa using h
    · simp only [pairUpdate, hg, hfull, if_false]
      have := alSet_length_of_none st.weights k s hg
      simp only [this]
      omega

theorem foldl_pairUpdate_length_le (cap : Nat) (hcap : 0 < cap)
    (contribs : List (String × ℚ)) (st : PairState)
    (h : st.weights.length ≤ cap) :
    (contribs.foldl (fun p c => pairUpdate cap p c.1 c.2) st).weights.length
      ≤ cap := by
  induction contribs generalizing st with
  | nil => simpa using h
  | cons c cs ih =>
    exact ih (pairUpdate cap st c.1 c.2)
      (pairUpdate_length_le cap hcap st c.1 c.2 h)

theorem buildFold_pairs_length_le (mrpu cap : Nat) (hcap : 0 < cap)
    (users : List UserRatings) (st : BuildState)
    (h : st.pairs.weights.length ≤ cap) :
    ((users.foldl (processUser mrpu cap) st).pairs.weights.length ≤ cap) := by
  induction users generalizing st with
  | nil => simpa using h
  | cons u us ih =>
    refine ih (processUser mrpu cap st u) ?_
    simp only [processUser]
    exact foldl_pairUpdate_length_le cap hcap _ st.pairs h

theorem addRating_fold_types (uid : String) (rs : List Rating)
    (ns : List GraphNode) (es : List GraphEdge)
    (h : ∀ e ∈ es, e.edgeType = "user-anime") :
    ∀ e ∈ (rs.foldl (addRating uid) (ns, es)).2,
      e.edgeType = "user-anime" := by
  induction rs generalizing ns es with
  | nil => simpa using h
  | cons r rs ih =>
    intro e he
    refine ih _ _ ?_ e he
    intro e2 he2
    simp only [addRating, List.mem_append, List.mem_singleton] at he2
    rcases he2 with h2 | h2
    · exact h e2 h2
    · rw [h2]

theorem buildFold_edge_types (mrpu cap : Nat) (users : List UserRatings)
    (st : BuildState) (h : ∀ e ∈ st.edges, e.edgeType = "user-anime") :
    ∀ e ∈ (users.foldl (processUser mrpu cap) st).edges,
      e.edgeType = "user-anime" := by
  induction users generalizing st with
  | nil => simpa using h
  | cons u us ih =>
    refine ih (processUser mrpu cap st u) ?_
    simp only [processUser]
    exact addRating_fold_types u.userId _ _ st.edges h

/-- C2: with a positive cap K, createGraph emits at most K distinct
anime-anime pair edges; once the cap is reached every brand-new pair key is
skipped with the skip counter incremented by one, while an already-tracked
key keeps receiving the halfway blend. -/
theorem c2_pair_edge_cap (gen : String) (users : List UserRatings)
    (mrpu K : Nat) (hK : 0 < K) :
    ((createGraph gen users mrpu K).graph.edges.filter
        (fun e => e.edgeType = "anime-anime")).length ≤ K ∧
    (∀ (st : PairState) (k : String) (s : ℚ),
      alGet st.weights k = none → K ≤ st.weights.length →
        pairUpdate K st k s = { st with skipped := st.skipped + 1 }) ∧
    (∀ (st : PairState) (k : String) (s w : ℚ),
      alGet st.weights k = some w →
        pairUpdate K st k s =
          { st with weights := alSet st.weights k ((w + s) / 2) }) := by
  refine ⟨?_, ?_, ?_⟩
  · have hlen := buildFold_pairs_length_le mrpu K hK users ⟨[], [], ⟨[], 0⟩⟩
      (by simp)
    have htypes := buildFold_edge_types mrpu K users ⟨[], [], ⟨[], 0⟩⟩
      (by simp)
    simp only [createGraph, List.filter_append]
    have h1 : ((users.foldl (processUser mrpu K) ⟨[], [], ⟨[], 0⟩⟩).edges.filter
        (fun e => decide (e.edgeType = "anime-anime"))) = [] := by
      rw [List.filter_eq_nil_iff]
      intro e he
      have := htypes e he
      simp [this]
    have h2 : (((users.foldl (processUser mrpu K) ⟨[], [], ⟨[], 0⟩⟩).pairs.weights.map
        (fun p => mkAAEdge p.1 p.2)).filter
        (fun e => decide (e.edgeType = "anime-anime"))).length ≤ K := by
      have : ((users.foldl (processUser mrpu K) ⟨[], [], ⟨[], 0⟩⟩).pairs.weights.map
          (fun p => mkAAEdge p.1 p.2)).filter
          (fun e => decide (e.edgeType = "anime-anime")) =
          (users.foldl (processUser mrpu K) ⟨[], [], ⟨[], 0⟩⟩).pairs.weights.map
          (fun p => mkAAEdge p.1 p.2) := by
        rw [List.filter_eq_self]
        intro e he
        simp only [List.mem_map] at he
        rcases he with ⟨p, _, hp⟩
        rw [← hp]
        simp [mkAAEdge]
      rw [this, List.length_map]
      exact hlen
    simpa using Nat.le_trans (by rw [h1]; simp) h2
  · intro st k s hnone hfull
    simp [pairUpdate, hnone, hK, hfull]
  · intro st k s w hsome
    exact pairUpdate_again K st k s w hsome

/-- C2 witness at a concrete build and cap. -/
theorem c2_pair_edge_cap_witness :
    ((createGraph "" [] 0 1).graph.edges.filter
        (fun e => e.edgeType = "anime-anime")).length ≤ 1 ∧
    (∀ (st : PairState) (k : String) (s : ℚ),
      alGet st.weights k = none → 1 ≤ st.weights.length →
        pairUpdate 1 st k s = { st with skipped := st.skipped + 1 }) ∧
    (∀ (st : PairState) (k : String) (s w : ℚ),
      alGet st.weights k = some w →
        pairUpdate 1 st k s =
          { st with weights := alSet st.weights k ((w + s) / 2) }) :=
  c2_pair_edge_cap "" [] 0 1 (by decide)

/-! ## C3: pair-edge symmetry in encounter order -/

theorem pairKey_comm (a b : Nat) : pairKey a b = pairKey b a := by
  simp [pairKey, Nat.min_comm, Nat.max_comm]

theorem pairScore_comm (ra rb : Rating) : pairScore ra rb = pairScore rb ra := by
  simp [pairScore]
  ring

theorem createGraph_aa_filter (gen : String) (users : List UserRatings)
    (mrpu cap : Nat) :
    ((createGraph gen users mrpu cap).graph.edges.filter
        (fun e => e.edgeType = "anime-anime")) =
      ((users.foldl (processUser mrpu cap) ⟨[], [], ⟨[], 0⟩⟩).pairs.weights.map
        (fun p => mkAAEdge p.1 p.2)) := by
  have htypes := buildFold_edge_types mrpu cap users ⟨[], [], ⟨[], 0⟩⟩ (by simp)
  simp only [createGraph, List.filter_append]
  have h1 : ((users.foldl (processUser mrpu cap) ⟨[], [], ⟨[], 0⟩⟩).edges.filter
      (fun e => decide (e.edgeType = "anime-anime"))) = [] := by
    rw [List.filter_eq_nil_iff]
    intro e he
    have := htypes e he
    simp [this]
  have h2 : (((users.foldl (processUser mrpu cap)
      ⟨[], [], ⟨[], 0⟩⟩).pairs.weights.map (fun p => mkAAEdge p.1 p.2)).filter
      (fun e => decide (e.edgeType = "anime-anime"))) =
      ((users.foldl (processUser mrpu cap) ⟨[], [], ⟨[], 0⟩⟩).pairs.weights.map
        (fun p => mkAAEdge p.1 p.2)) := by
    rw [List.filter_eq_self]
    intro e he
    simp only [List.mem_map] at he
    rcases he with ⟨p, _, hp⟩
    rw [← hp]
    simp [mkAAEdge]
  rw [h1, h2]
  simp

/-- C3: the item-item pair edge a user contributes for two rated items is
identical whether the rating list presents them in one order or the other:
the pair key is canonicalized through min and max, the pair score is
symmetric, and createGraph produces the same anime-anime edge list for the
two-rating user either way. -/
theorem c3_pair_symmetry (gen u : String) (mrpu cap : Nat) (ra rb : Rating) :
    (∀ a b : Nat, pairKey a b = pairKey b a) ∧
    pairScore ra rb = pairScore rb ra ∧
    ((createGraph gen [⟨u, [ra, rb]⟩] mrpu cap).graph.edges.filter
        (fun e => e.edgeType = "anime-anime")) =
      ((createGraph gen [⟨u, [rb, ra]⟩] mrpu cap).graph.edges.filter
        (fun e => e.edgeType = "anime-anime")) := by
  refine ⟨pairKey_comm, pairScore_comm ra rb, ?_⟩
  rw [createGraph_aa_filter, createGraph_aa_filter]
  have hpairs : ∀ r1 r2 : Rating,
      ([(⟨u, [r1, r2]⟩ : UserRatings)].foldl (processUser mrpu cap)
        ⟨[], [], ⟨[], 0⟩⟩).pairs =
      ((userPairContribs (truncRatings mrpu [r1, r2])).foldl
        (fun p c => pairUpdate cap p c.1 c.2) ⟨[], 0⟩) := by
    intro r1 r2
    simp [processUser]
  rw [hpairs, hpairs]
  have hsym : userPairContribs (truncRatings mrpu [ra, rb]) =
      userPairContribs (truncRatings mrpu [rb, ra]) := by
    rcases mrpu with _ | m
    · simp [truncRatings, userPairContribs, pairKey_comm, pairScore_comm ra rb]
    · rcases m with _ | m
      · simp [truncRatings, userPairContribs]
      · simp [truncRatings, userPairContribs, pairKey_comm,
          pairScore_comm ra rb]
  rw [hsym]

theorem pairUpdate3 (k : String) (q1 q2 q3 : ℚ) :
    pairUpdate 0 (pairUpdate 0 (pairUpdate 0 ⟨[], 0⟩ k q1) k q2) k q3 =
      ⟨[(k, ((q1 + q2) / 2 + q3) / 2)], 0⟩ := by
  have h1 : pairUpdate 0 ⟨[], 0⟩ k q1 = ⟨[(k, q1)], 0⟩ := by
    rw [pairUpdate_first 0 ⟨[], 0⟩ k q1 rfl (Or.inl rfl)]
    simp [alSet]
  rw [h1]
  have hg1 : alGet ((⟨[(k, q1)], 0⟩ : PairState).weights) k = some q1 := by
    simp [alGet, List.find?]
  have h2 : pairUpdate 0 ⟨[(k, q1)], 0⟩ k q2 =
      ⟨[(k, (q1 + q2) / 2)], 0⟩ := by
    rw [pairUpdate_again 0 ⟨[(k, q1)], 0⟩ k q2 q1 hg1]
    simp [alSet]
  rw [h2]
  have hg2 : alGet ((⟨[(k, (q1 + q2) / 2)], 0⟩ : PairState).weights) k =
      some ((q1 + q2) / 2) := by
    simp [alGet, List.find?]
  rw [pairUpdate_again 0 ⟨[(k, (q1 + q2) / 2)], 0⟩ k q3 _ hg2]
  simp [alSet]

/-- C1: in createGraph's pair aggregation, a pair key receiving successive
contributions s1, s2, s3 with no cap hit holds the running weights s1, then
(s1 + s2) / 2, then ((s1 + s2) / 2 + s3) / 2 — the repeated halfway blend,
not the true running average — and a build over three users who contribute
s1, s2, s3 to one pair key emits that pair edge with the blended weight. -/
theorem c1_halfway_blend (gen : String) (cap : Nat) (st : PairState)
    (k : String) (s1 s2 s3 : ℚ) (hk : alGet st.weights k = none)
    (hcap : cap = 0 ∨ st.weights.length < cap) :
    alGet (pairUpdate cap st k s1).weights k = some s1 ∧
    alGet (pairUpdate cap (pairUpdate cap st k s1) k s2).weights k =
      some ((s1 + s2) / 2) ∧
    alGet (pairUpdate cap (pairUpdate cap (pairUpdate cap st k s1) k s2)
        k s3).weights k = some (((s1 + s2) / 2 + s3) / 2) ∧
    ((createGraph gen
        [⟨"u1", [⟨1, "A", 0, s1⟩, ⟨2, "B", 0, s1⟩]⟩,
         ⟨"u2", [⟨1, "A", 0, s2⟩, ⟨2, "B", 0, s2⟩]⟩,
         ⟨"u3", [⟨1, "A", 0, s3⟩, ⟨2, "B", 0, s3⟩]⟩] 0 0).graph.edges.filter
      (fun e => e.edgeType = "anime-anime")) =
      [mkAAEdge (pairKey 1 2) (((s1 + s2) / 2 + s3) / 2)] := by
  have h1 := pairUpdate_first cap st k s1 hk hcap
  have g1 : alGet (pairUpdate cap st k s1).weights k = some s1 := by
    rw [h1]; exact alGet_alSet_self _ _ _
  have h2 := pairUpdate_again cap (pairUpdate cap st k s1) k s2 s1 g1
  have g2 : alGet (pairUpdate cap (pairUpdate cap st k s1) k s2).weights k =
      some ((s1 + s2) / 2) := by
    rw [h2]; exact alGet_alSet_self _ _ _
  have h3 := pairUpdate_again cap
    (pairUpdate cap (pairUpdate cap st k s1) k s2) k s3 ((s1 + s2) / 2) g2
  have g3 : alGet (pairUpdate cap (pairUpdate cap (pairUpdate cap st k s1)
      k s2) k s3).weights k = some (((s1 + s2) / 2 + s3) / 2) := by
    rw [h3]; exact alGet_alSet_self _ _ _
  refine ⟨g1, g2, g3, ?_⟩
  rw [createGraph_aa_filter]
  have hstep : ∀ (bst : BuildState) (uid t1 t2 : String) (q : ℚ),
      (processUser 0 0 bst ⟨uid, [⟨1, t1, 0, q⟩, ⟨2, t2, 0, q⟩]⟩).pairs =
      pairUpdate 0 bst.pairs (pairKey 1 2) ((q + q) / 2) := by
    intro bst uid t1 t2 q
    simp [processUser, truncRatings, userPairContribs, pairScore]
  simp only [List.foldl_cons, List.foldl_nil, hstep]
  rw [pairUpdate3]
  simp only [List.map_cons, List.map_nil]
  rw [show (((s1 + s1) / 2 + (s2 + s2) / 2) / 2 + (s3 + s3) / 2) / 2 =
    ((s1 + s2) / 2 + s3) / 2 from by ring]

/-- C1 witness at a concrete state and concrete scores. -/
theorem c1_halfway_blend_witness :
    alGet (pairUpdate 0 ⟨[], 0⟩ "1:2" 4).weights "1:2" = some 4 ∧
    alGet (pairUpdate 0 (pairUpdate 0 ⟨[], 0⟩ "1:2" 4) "1:2" 2).weights "1:2" =
      some ((4 + 2) / 2) ∧
    alGet (pairUpdate 0 (pairUpdate 0 (pairUpdate 0 ⟨[], 0⟩ "1:2" 4) "1:2" 2)
        "1:2" 1).weights "1:2" = some (((4 + 2) / 2 + 1) / 2) ∧
    ((createGraph "g"
        [⟨"u1", [⟨1, "A", 0, 4⟩, ⟨2, "B", 0, 4⟩]⟩,
         ⟨"u2", [⟨1, "A", 0, 2⟩, ⟨2, "B", 0, 2⟩]⟩,
         ⟨"u3", [⟨1, "A", 0, 1⟩, ⟨2, "B", 0, 1⟩]⟩] 0 0).graph.edges.filter
      (fun e => e.edgeType = "anime-anime")) =
      [mkAAEdge (pairKey 1 2) (((4 + 2) / 2 + 1) / 2)] :=
  c1_halfway_blend "g" 0 ⟨[], 0⟩ "1:2" 4 2 1 rfl (Or.inl rfl)

/-! ## C8: retry-after precedence over exponential backoff -/

/-- C8: HTTP 429 is retryable, and a valid retry-after header of S seconds
makes the pre-retry delay exactly max(S, 1) * 1000 plus the jitter — the
server hint takes precedence over the exponential default — so the delay is
at least S * 1000 milliseconds. -/
theorem c8_retry_after_precedence (attempt : Nat) (hdr : String) (S : Int)
    (jitter : Nat) (hp : jsParseIntDec hdr = some S) (hS : 0 ≤ S)
    (hj : jitter < 350) :
    isRetryableStatus 429 = true ∧
    malRetryDelayMs attempt (some hdr) jitter = max S 1 * 1000 + jitter ∧
    S * 1000 ≤ malRetryDelayMs attempt (some hdr) jitter := by
  refine ⟨by decide, ?_, ?_⟩
  · simp [malRetryDelayMs, hp]
  · simp only [malRetryDelayMs, hp]
    have h1 : S ≤ max S 1 := le_max_left S 1
    have h2 : S * 1000 ≤ max S 1 * 1000 :=
      mul_le_mul_of_nonneg_right h1 (by norm_num)
    have h3 : (0 : Int) ≤ (jitter : Int) := Int.ofNat_nonneg jitter
    linarith

/-- C8 witness: a 429 with retry-after 2 and zero jitter waits exactly 2000
milliseconds, at least the advertised two seconds. -/
theorem c8_retry_after_precedence_witness :
    isRetryableStatus 429 = true ∧
    malRetryDelayMs 0 (some "2") 0 = max 2 1 * 1000 + 0 ∧
    (2 : Int) * 1000 ≤ malRetryDelayMs 0 (some "2") 0 :=
  c8_retry_after_precedence 0 "2" 2 0 (by decide) (by decide) (by decide)

/-! ## C7: the anonymizer -/

/-- A character of a lowercase hexadecimal digest. -/
def isHexLowerChar (c : Char) : Prop :=
  c.isDigit = true ∨ ('a' ≤ c ∧ c ≤ 'f')

instance (c : Char) : Decidable (isHexLowerChar c) := by
  unfold isHexLowerChar
  infer_instance

theorem hexChar_isHexLower : ∀ n < 16, isHexLowerChar (hexChar n) := by
  decide

theorem wordToHex_isHexLower (w : Nat) :
    ∀ c ∈ wordToHex w, isHexLowerChar c := by
  intro c hc
  simp only [wordToHex, List.mem_cons, List.not_mem_nil, or_false] at hc
  have h16 : ∀ x : Nat, x % 16 < 16 := fun x => Nat.mod_lt x (by norm_num)
  rcases hc with h | h | h | h | h | h | h | h <;>
    (rw [h]; exact hexChar_isHexLower _ (h16 _))

theorem sha256Hex_length (m : List Nat) : (sha256Hex m).data.length = 64 := by
  simp [sha256Hex, wordToHex]

theorem sha256Hex_isHexLower (m : List Nat) :
    ∀ c ∈ (sha256Hex m).data, isHexLowerChar c := by
  intro c hc
  simp only [sha256Hex, List.mem_append] at hc
  rcases hc with ((((((h | h) | h) | h) | h) | h) | h) | h <;>
    exact wordToHex_isHexLower _ c h

/-- C7: anonymizeUsername is invariant under the whitespace and casing of
the username, sensitive to the salt, and always equals the 24-character
lowercase-hexadecimal prefix of the SHA-256 digest of
salt ++ colon ++ trimmed-lowercased username. -/
theorem c7_anonymize_contract (u s : String) :
    anonymizeUsername "Gigguk" "s1" = anonymizeUsername " gigguk " "s1" ∧
    anonymizeUsername "Gigguk" "s1" ≠ anonymizeUsername "Gigguk" "s2" ∧
    anonymizeUsername u s =
      jsSliceTo (sha256Hex (strBytes (s ++ ":" ++ normalizeUsername u))) 24 ∧
    (anonymizeUsername u s).data.length = 24 ∧
    (∀ c ∈ (anonymizeUsername u s).data, isHexLowerChar c) := by
  refine ⟨by decide, by decide, rfl, ?_, ?_⟩
  · simp only [anonymizeUsername, jsSliceTo, List.length_take]
    rw [sha256Hex_length]
    decide
  · intro c hc
    simp only [anonymizeUsername, jsSliceTo] at hc
    exact sha256Hex_isHexLower _ c (List.mem_of_mem_take hc)

/-! ## C5: at-most-once processing in the crawl loop -/

/-- The dedup invariant of the crawl frontier: the recorded processing
attempts have pairwise distinct normalized forms, and each one is in the
processed set. -/
def crawlInv (st : Frontier × List String) : Prop :=
  (st.2.map normalizeUsername).Nodup ∧
  ∀ a ∈ st.2, normalizeUsername a ∈ st.1.processed

theorem crawlStep_inv (st : Frontier × List String) (op : CrawlOp)
    (h : crawlInv st) : crawlInv (crawlStep st op) := by
  rcases h with ⟨hnd, hmem⟩
  cases op with
  | enq u =>
    refine ⟨hnd, ?_⟩
    intro a ha
    have := hmem a ha
    simp only [crawlStep]
    by_cases hcond : normalizeUsername u = "" ∨
        normalizeUsername u ∈ st.1.queued ∨
        normalizeUsername u ∈ st.1.processed
    · simpa [enqueue, hcond] using this
    · simpa [enqueue, hcond] using this
  | deq =>
    cases hq : st.1.queue with
    | nil => exact ⟨by simpa [crawlStep, hq] using hnd,
        by simpa [crawlStep, hq] using hmem⟩
    | cons u rest =>
      by_cases hp : normalizeUsername u ∈ st.1.processed
      · refine ⟨by simpa [crawlStep, hq, hp] using hnd, ?_⟩
        intro a ha
        simp only [crawlStep, hq, hp, if_true] at ha ⊢
        exact hmem a ha
      · refine ⟨?_, ?_⟩
        · simp only [crawlStep, hq, hp, if_false, List.map_append,
            List.map_cons, List.map_nil]
          rw [List.nodup_append]
          refine ⟨hnd, List.nodup_singleton _, ?_⟩
          intro x hx
          simp only [List.mem_map] at hx
          rcases hx with ⟨a, ha, hax⟩
          simp only [List.mem_singleton]
          intro hxu
          apply hp
          rw [← hxu, ← hax]
          exact hmem a ha
        · intro a ha
          simp only [crawlStep, hq, hp, if_false, List.mem_append,
            List.mem_singleton] at ha ⊢
          rcases ha with ha | ha
          · exact List.mem_cons_of_mem _ (hmem a ha)
          · rw [ha]
            exact List.mem_cons_self _ _

theorem runCrawl_fold_inv (ops : List CrawlOp) (st : Frontier × List String)
    (h : crawlInv st) : crawlInv (ops.foldl crawlStep st) := by
  induction ops generalizing st with
  | nil => simpa using h
  | cons op ops ih => exact ih (crawlStep st op) (crawlStep_inv st op h)

/-- C5: the crawl frontier processes each normalized username at most once:
over any operation sequence the recorded processing attempts have pairwise
distinct normalized forms; enqueue refuses a username whose normalized form
is already queued or processed; and a dequeued username whose normalized
form is already processed is skipped silently, while a fresh one is marked
processed in the same step its attempt is recorded. -/
theorem c5_at_most_once_processing (ops : List CrawlOp) (u : String)
    (f : Frontier)
    (hq : normalizeUsername u ∈ f.queued ∨ normalizeUsername u ∈ f.processed) :
    ((runCrawl ops).2.map normalizeUsername).Nodup ∧
    enqueue u f = f ∧
    (∀ (st : Frontier) (rest att : List String),
      st.queue = u :: rest → normalizeUsername u ∈ st.processed →
        crawlStep (st, att) CrawlOp.deq =
          ({ st with
              queue := rest
              queued := st.queued.filter
                (fun q => ¬ q = normalizeUsername u) }, att)) ∧
    (∀ (st : Frontier) (rest att : List String),
      st.queue = u :: rest → normalizeUsername u ∉ st.processed →
        crawlStep (st, att) CrawlOp.deq =
          ({ st with
              queue := rest
              queued := st.queued.filter
                (fun q => ¬ q = normalizeUsername u)
              processed := normalizeUsername u :: st.processed },
            att ++ [u])) := by
  refine ⟨(runCrawl_fold_inv ops (⟨[], [], []⟩, []) (by simp [crawlInv])).1,
    ?_, ?_, ?_⟩
  · have hcond : normalizeUsername u = "" ∨
        normalizeUsername u ∈ f.queued ∨ normalizeUsername u ∈ f.processed :=
      Or.inr hq
    simp [enqueue, hcond]
  · intro st rest att hqueue hp
    simp [crawlStep, hqueue, hp]
  · intro st rest att hqueue hp
    simp [crawlStep, hqueue, hp]

/-- C5 witness at a concrete operation sequence and frontier. -/
theorem c5_at_most_once_processing_witness :
    ((runCrawl [CrawlOp.enq "A", CrawlOp.enq " a ", CrawlOp.deq,
        CrawlOp.deq]).2.map normalizeUsername).Nodup ∧
    enqueue "x" ⟨[], ["x"], []⟩ = ⟨[], ["x"], []⟩ ∧
    (∀ (st : Frontier) (rest att : List String),
      st.queue = "x" :: rest → normalizeUsername "x" ∈ st.processed →
        crawlStep (st, att) CrawlOp.deq =
          ({ st with
              queue := rest
              queued := st.queued.filter
                (fun q => ¬ q = normalizeUsername "x") }, att)) ∧
    (∀ (st : Frontier) (rest att : List String),
      st.queue = "x" :: rest → normalizeUsername "x" ∉ st.processed →
        crawlStep (st, att) CrawlOp.deq =
          ({ st with
              queue := rest
              queued := st.queued.filter
                (fun q => ¬ q = normalizeUsername "x")
              processed := normalizeUsername "x" :: st.processed },
            att ++ ["x"])) :=
  c5_at_most_once_processing
    [CrawlOp.enq "A", CrawlOp.enq " a ", CrawlOp.deq, CrawlOp.deq]
    "x" ⟨[], ["x"], []⟩ (by decide)

/-! ## C4: per-user mean of normalized scores is zero -/

theorem normMap_userId (v : String) (A : ℚ) (r : RatingRow) :
    ((if r.userId = v then
      { r with normalizedScore := r.rawScore - A } else r) : RatingRow).userId =
      r.userId := by
  by_cases h : r.userId = v <;> simp [h]

theorem normMap_raw (v : String) (A : ℚ) (r : RatingRow) :
    ((if r.userId = v then
      { r with normalizedScore := r.rawScore - A } else r) :
        RatingRow).rawScore = r.rawScore := by
  by_cases h : r.userId = v <;> simp [h]

theorem mapNorm_filter_raw (rows : List RatingRow) (v u : String) (A : ℚ) :
    ((rows.map (fun r => if r.userId = v then
        { r with normalizedScore := r.rawScore - A } else r)).filter
        (fun r => r.userId = u)).map (fun r => r.rawScore) =
      (rows.filter (fun r => r.userId = u)).map (fun r => r.rawScore) := by
  rw [List.filter_map, List.map_map]
  have hfil : rows.filter ((fun r : RatingRow => decide (r.userId = u)) ∘
      (fun r => if r.userId = v then
        { r with normalizedScore := r.rawScore - A } else r)) =
      rows.filter (fun r => r.userId = u) := by
    apply List.filter_congr
    intro r _
    simp only [Function.comp_apply, normMap_userId]
  rw [hfil]
  apply List.map_congr_left
  intro r _
  simp only [Function.comp_apply, normMap_raw]

theorem applyNorm_filter_raw (rows : List RatingRow) (v u : String) :
    ((applyUserNormalization rows v).filter (fun r => r.userId = u)).map
        (fun r => r.rawScore) =
      (rows.filter (fun r => r.userId = u)).map (fun r => r.rawScore) := by
  simp only [applyUserNormalization]
  exact mapNorm_filter_raw rows v u (avgRawScore rows v)

theorem avg_applyNorm (rows : List RatingRow) (v u : String) :
    avgRawScore (applyUserNormalization rows v) u = avgRawScore rows u := by
  unfold avgRawScore
  rw [applyNorm_filter_raw rows v u]

theorem applyNorm_self_norm (rows : List RatingRow) (v : String) :
    ∀ r ∈ applyUserNormalization rows v, r.userId = v →
      r.normalizedScore = r.rawScore - avgRawScore rows v := by
  intro r hr hv
  simp only [applyUserNormalization, List.mem_map] at hr
  rcases hr with ⟨r0, _, hr0⟩
  by_cases h0 : r0.userId = v
  · rw [← hr0]
    simp [h0]
  · rw [← hr0] at hv
    simp only [h0, if_false] at hv

theorem foldNorm_preserves (u : String) (A : ℚ) (vs : List String)
    (rows1 : List RatingRow) (havg : avgRawScore rows1 u = A)
    (hQ : ∀ r ∈ rows1, r.userId = u →
      r.normalizedScore = r.rawScore - A) :
    avgRawScore (vs.foldl applyUserNormalization rows1) u = A ∧
    ∀ r ∈ vs.foldl applyUserNormalization rows1, r.userId = u →
      r.normalizedScore = r.rawScore - A := by
  induction vs generalizing rows1 with
  | nil => exact ⟨havg, hQ⟩
  | cons w ws ih =>
    refine ih (applyUserNormalization rows1 w) ?_ ?_
    · rw [avg_applyNorm]
      exact havg
    · intro r hr hu
      simp only [applyUserNormalization, List.mem_map] at hr
      rcases hr with ⟨r0, hr0m, hr0⟩
      by_cases h0 : r0.userId = w
      · rw [← hr0] at hu ⊢
        simp only [h0, if_true] at hu ⊢
        rw [hu, havg]
      · rw [← hr0] at hu ⊢
        simp only [h0, if_false] at hu ⊢
        exact hQ r0 hr0m hu

theorem recompute_norm_eq (users : List String) (rows : List RatingRow)
    (u : String) (hu : u ∈ users) :
    ∀ r ∈ recomputeNormalizedScores users rows, r.userId = u →
      r.normalizedScore = r.rawScore - avgRawScore rows u := by
  induction users generalizing rows with
  | nil => cases hu
  | cons v vs ih =>
    by_cases hv : u = v
    · subst hv
      simp only [recomputeNormalizedScores, List.foldl_cons]
      exact (foldNorm_preserves u (avgRawScore rows u) vs
        (applyUserNormalization rows u) (avg_applyNorm rows u u)
        (applyNorm_self_norm rows u)).2
    · have hu2 : u ∈ vs := by
        rcases List.mem_cons.mp hu with h | h
        · exact absurd h hv
        · exact h
      simp only [recomputeNormalizedScores, List.foldl_cons]
      intro r hr hru
      have := ih (applyUserNormalization rows v) hu2 r hr hru
      rw [this, avg_applyNorm]

theorem recompute_filter_raw (users : List String) (rows : List RatingRow)
    (u : String) :
    ((recomputeNormalizedScores users rows).filter
        (fun r => r.userId = u)).map (fun r => r.rawScore) =
      (rows.filter (fun r => r.userId = u)).map (fun r => r.rawScore) := by
  induction users generalizing rows with
  | nil => rfl
  | cons v vs ih =>
    simp only [recomputeNormalizedScores, List.foldl_cons] at ih ⊢
    rw [ih (applyUserNormalization rows v), applyNorm_filter_raw]

theorem sum_map_sub_const (l : List RatingRow) (A : ℚ) :
    (l.map (fun r => r.rawScore - A)).sum =
      (l.map (fun r => r.rawScore)).sum - l.length * A := by
  induction l with
  | nil => simp
  | cons r rs ih =>
    simp only [List.map_cons, List.sum_cons, List.length_cons, ih]
    push_cast
    ring

/-- C4: after recomputeNormalizedScores, every user of the users table with
at least one rating has normalized scores summing to zero, hence mean zero,
because each row was set to its raw score minus the user's mean raw
score. -/
theorem c4_mean_normalized_zero (users : List String)
    (rows : List RatingRow) (u : String) (hu : u ∈ users)
    (hr : (rows.filter (fun r => r.userId = u)).length ≠ 0) :
    (((recomputeNormalizedScores users rows).filter
        (fun r => r.userId = u)).map (fun r => r.normalizedScore)).sum = 0 ∧
    (((recomputeNormalizedScores users rows).filter
          (fun r => r.userId = u)).map (fun r => r.normalizedScore)).sum /
        (((recomputeNormalizedScores users rows).filter
          (fun r => r.userId = u)).length) = 0 := by
  set F := recomputeNormalizedScores users rows with hF
  have hnorm : ∀ r ∈ F.filter (fun r => r.userId = u),
      r.normalizedScore = r.rawScore - avgRawScore rows u := by
    intro r hrm
    have hm := List.mem_filter.mp hrm
    have hid : r.userId = u := by simpa using hm.2
    exact recompute_norm_eq users rows u hu r hm.1 hid
  have hmapeq : (F.filter (fun r => r.userId = u)).map
      (fun r => r.normalizedScore) =
      (F.filter (fun r => r.userId = u)).map
        (fun r => r.rawScore - avgRawScore rows u) :=
    List.map_congr_left hnorm
  have hraws := recompute_filter_raw users rows u
  have hlen : (F.filter (fun r => r.userId = u)).length =
      (rows.filter (fun r => r.userId = u)).length := by
    have := congrArg List.length hraws
    simpa using this
  have hsum : ((F.filter (fun r => r.userId = u)).map
      (fun r => r.normalizedScore)).sum = 0 := by
    rw [hmapeq, sum_map_sub_const, hraws, hlen]
    unfold avgRawScore
    have hne : ((rows.filter (fun r => r.userId = u)).length : ℚ) ≠ 0 := by
      exact_mod_cast hr
    simp only [List.length_map] at *
    rw [if_neg (by simpa using hr)]
    field_simp
  exact ⟨hsum, by rw [hsum]; simp⟩

/-- C4 witness at a concrete table: one user with raw scores 8, 6, 4. -/
theorem c4_mean_normalized_zero_witness :
    (((recomputeNormalizedScores ["u"]
        [⟨"u", 1, 8, 0⟩, ⟨"u", 2, 6, 0⟩, ⟨"u", 3, 4, 0⟩]).filter
        (fun r => r.userId = "u")).map (fun r => r.normalizedScore)).sum = 0 ∧
    (((recomputeNormalizedScores ["u"]
          [⟨"u", 1, 8, 0⟩, ⟨"u", 2, 6, 0⟩, ⟨"u", 3, 4, 0⟩]).filter
          (fun r => r.userId = "u")).map (fun r => r.normalizedScore)).sum /
        (((recomputeNormalizedScores ["u"]
          [⟨"u", 1, 8, 0⟩, ⟨"u", 2, 6, 0⟩, ⟨"u", 3, 4, 0⟩]).filter
          (fun r => r.userId = "u")).length) = 0 :=
  c4_mean_normalized_zero ["u"]
    [⟨"u", 1, 8, 0⟩, ⟨"u", 2, 6, 0⟩, ⟨"u", 3, 4, 0⟩] "u"
    (by simp) (by simp)

/-! ## C6: discovery-seed ordering for a fresh user -/

theorem insertDesc_perm (x : DiscoveryRating) (l : List DiscoveryRating) :
    (jsSortInsertDesc x l).Perm (x :: l) := by
  induction l with
  | nil => exact List.Perm.refl _
  | cons y ys ih =>
    by_cases hc : x.rawScore - y.rawScore ≤ 0
    · simp only [jsSortInsertDesc, hc, if_true]
      exact (ih.cons y).trans (List.Perm.swap x y ys)
    · simp only [jsSortInsertDesc, hc, if_false]
      exact List.Perm.refl _

theorem foldInsertDesc_perm (l acc : List DiscoveryRating) :
    (l.foldl (fun a x => jsSortInsertDesc x a) acc).Perm (acc ++ l) := by
  induction l generalizing acc with
  | nil =>
    simp only [List.foldl_nil, List.append_nil]
    exact List.Perm.refl _
  | cons x xs ih =>
    simp only [List.foldl_cons]
    refine (ih (jsSortInsertDesc x acc)).trans ?_
    have h1 : (jsSortInsertDesc x acc ++ xs).Perm ((x :: acc) ++ xs) :=
      (insertDesc_perm x acc).append_right xs
    refine h1.trans ?_
    simpa using List.perm_middle.symm

theorem jsSortDesc_perm (l : List DiscoveryRating) :
    (jsSortDesc l).Perm l := by
  simpa using foldInsertDesc_perm l []

theorem insertDesc_sorted (x : DiscoveryRating) (l : List DiscoveryRating)
    (h : l.Pairwise (fun a b => b.rawScore ≤ a.rawScore)) :
    (jsSortInsertDesc x l).Pairwise (fun a b => b.rawScore ≤ a.rawScore) := by
  induction l with
  | nil => simp [jsSortInsertDesc]
  | cons y ys ih =>
    rcases List.pairwise_cons.mp h with ⟨hy, hys⟩
    by_cases hc : x.rawScore - y.rawScore ≤ 0
    · simp only [jsSortInsertDesc, hc, if_true]
      refine List.pairwise_cons.mpr ⟨?_, ih hys⟩
      intro z hz
      have hz2 : z ∈ x :: ys := (insertDesc_perm x ys).mem_iff.mp hz
      rcases List.mem_cons.mp hz2 with hz3 | hz3
      · rw [hz3]
        linarith [sub_nonpos.mp hc]
      · exact hy z hz3
    · simp only [jsSortInsertDesc, hc, if_false]
      have hlt : y.rawScore < x.rawScore := by
        have := lt_of_not_le hc
        linarith
      refine List.pairwise_cons.mpr ⟨?_, h⟩
      intro z hz
      rcases List.mem_cons.mp hz with hz3 | hz3
      · rw [hz3]
        exact le_of_lt hlt
      · exact le_trans (hy z hz3) (le_of_lt hlt)

theorem jsSortDesc_sorted (l : List DiscoveryRating) :
    (jsSortDesc l).Pairwise (fun a b => b.rawScore ≤ a.rawScore) := by
  have key : ∀ (m acc : List DiscoveryRating),
      acc.Pairwise (fun a b => b.rawScore ≤ a.rawScore) →
      (m.foldl (fun a x => jsSortInsertDesc x a) acc).Pairwise
        (fun a b => b.rawScore ≤ a.rawScore) := by
    intro m
    induction m with
    | nil => intro acc h; simpa using h
    | cons x xs ih =>
      intro acc h
      exact ih (jsSortInsertDesc x acc) (insertDesc_sorted x acc h)
  exact key l [] (by simp)

theorem insertDesc_agree (x : DiscoveryRating) (l : List DiscoveryRating)
    (hdist : ∀ y ∈ l, y.rawScore ≠ x.rawScore) :
    jsSortInsertDesc x l = sqlOrderInsert x l := by
  induction l with
  | nil => rfl
  | cons y ys ih =>
    have hyx : y.rawScore ≠ x.rawScore := hdist y (List.mem_cons_self y ys)
    by_cases hc : x.rawScore < y.rawScore
    · have h1 : x.rawScore - y.rawScore ≤ 0 := by linarith
      have h2 : sqlKeyLe y x = true := by
        simp only [sqlKeyLe]
        simp [hc]
      simp only [jsSortInsertDesc, sqlOrderInsert, h1, if_true, h2]
      rw [ih (fun z hz => hdist z (List.mem_cons_of_mem y hz))]
    · have h1 : ¬ x.rawScore - y.rawScore ≤ 0 := by
        intro hle
        have : x.rawScore ≤ y.rawScore := by linarith
        rcases lt_or_eq_of_le this with h | h
        · exact hc h
        · exact hyx h.symm
      have h2 : sqlKeyLe y x = false := by
        simp only [sqlKeyLe, decide_eq_false_iff_not]
        intro h
        rcases h with h | ⟨he, _⟩
        · exact hc h
        · exact hyx he.symm
      simp [jsSortInsertDesc, sqlOrderInsert, h1, h2]

theorem sorts_agree (l : List DiscoveryRating)
    (hnd : (l.map (fun r => r.rawScore)).Nodup) :
    jsSortDesc l = sqlOrderRows l := by
  have key : ∀ (m acc : List DiscoveryRating),
      ((acc ++ m).map (fun r => r.rawScore)).Nodup →
      m.foldl (fun a x => jsSortInsertDesc x a) acc =
        m.foldl (fun a x => sqlOrderInsert x a) acc := by
    intro m
    induction m with
    | nil => intro acc _; rfl
    | cons x xs ih =>
      intro acc hacc
      have hdist : ∀ y ∈ acc, y.rawScore ≠ x.rawScore := by
        intro y hy he
        have h1 : y.rawScore ∈ (acc.map (fun r => r.rawScore)) :=
          List.mem_map_of_mem _ hy
        have h2 : x.rawScore ∈ ((x :: xs).map (fun r => r.rawScore)) := by
          simp
        have := (List.nodup_append.mp (by
          simpa [List.map_append] using hacc)).2.2
        have hmem2 : y.rawScore ∈
            x.rawScore :: (xs.map fun r => r.rawScore) := by
          rw [he]
          exact List.mem_cons_self _ _
        exact this h1 hmem2
      simp only [List.foldl_cons]
      rw [insertDesc_agree x acc hdist]
      refine ih (sqlOrderInsert x acc) ?_
      have hperm : (sqlOrderInsert x acc ++ xs).Perm (acc ++ x :: xs) := by
        have hp1 : (sqlOrderInsert x acc).Perm (x :: acc) := by
          rw [← insertDesc_agree x acc hdist]
          exact insertDesc_perm x acc
        exact (hp1.append_right xs).trans (by simpa using List.perm_middle.symm)
      exact ((hperm.map (fun r => r.rawScore)).nodup_iff).mpr hacc
  exact key l [] (by simpa using hnd)

/-- C6 counterexample: two fetched ratings with equal raw score 5 and anime
ids 2 then 1; the fresh-user discovery seeds keep the fetched order (2
before 1), not the store query's anime-id-ascending tie-break (1 before
2). -/
theorem c6_fresh_seed_order_counterexample :
    discoverySeedsFresh [⟨2, "b", 5⟩, ⟨1, "a", 5⟩] 8 ≠
      topNRatingsStore [⟨2, 5⟩, ⟨1, 5⟩] 8 := by
  norm_num [discoverySeedsFresh, jsSortDesc, jsSortInsertDesc,
    topNRatingsStore, sqlOrderRows, sqlOrderInsert, sqlKeyLe]

/-- C6 as amended: a fresh user's discovery seeds are the fetched ratings
stably sorted by raw score descending and truncated to the fan-out — a
permutation of the mapped ratings, sorted nonincreasingly — and the
ordering agrees with the store query's (raw DESC, anime_id ASC) ordering
whenever the raw scores are pairwise distinct; ties instead keep the
fetched order. -/
theorem c6_fresh_seed_order_amended (ratings : List MalAnimeEntry) (n : Nat)
    (hnd : ((ratings.map (fun r =>
        (⟨r.anime_id, r.score⟩ : DiscoveryRating))).map
        (fun r => r.rawScore)).Nodup) :
    (jsSortDesc (ratings.map (fun r =>
        (⟨r.anime_id, r.score⟩ : DiscoveryRating)))).Perm
      (ratings.map (fun r => (⟨r.anime_id, r.score⟩ : DiscoveryRating))) ∧
    (discoverySeedsFresh ratings n).Pairwise
      (fun a b => b.rawScore ≤ a.rawScore) ∧
    discoverySeedsFresh ratings n =
      topNRatingsStore (ratings.map (fun r =>
        (⟨r.anime_id, r.score⟩ : DiscoveryRating))) n := by
  refine ⟨jsSortDesc_perm _, ?_, ?_⟩
  · exact (jsSortDesc_sorted _).sublist (List.take_sublist _ _)
  · unfold discoverySeedsFresh topNRatingsStore
    rw [sorts_agree _ hnd]

/-- C6 amended witness at concrete ratings with distinct raw scores. -/
theorem c6_fresh_seed_order_amended_witness :
    (jsSortDesc (([⟨7, "x", 4⟩, ⟨3, "y", 9⟩] : List MalAnimeEntry).map
        (fun r => (⟨r.anime_id, r.score⟩ : DiscoveryRating)))).Perm
      (([⟨7, "x", 4⟩, ⟨3, "y", 9⟩] : List MalAnimeEntry).map (fun r =>
        (⟨r.anime_id, r.score⟩ : DiscoveryRating))) ∧
    (discoverySeedsFresh [⟨7, "x", 4⟩, ⟨3, "y", 9⟩] 8).Pairwise
      (fun a b => b.rawScore ≤ a.rawScore) ∧
    discoverySeedsFresh [⟨7, "x", 4⟩, ⟨3, "y", 9⟩] 8 =
      topNRatingsStore (([⟨7, "x", 4⟩, ⟨3, "y", 9⟩] :
          List MalAnimeEntry).map (fun r =>
        (⟨r.anime_id, r.score⟩ : DiscoveryRating))) 8 :=
  c6_fresh_seed_order_amended [⟨7, "x", 4⟩, ⟨3, "y", 9⟩] 8
    (by norm_num)

/-! ## String and decimal lemmas for the graph encodings -/

theorem strData_append (a b : String) : (a ++ b).data = a.data ++ b.data := by
  simp [String.data_append]

theorem strMk_data (s : String) : (⟨s.data⟩ : String) = s := rfl

theorem digitChar_facts (d : Nat) :
    (digitChar d).isDigit = true ∧ (digitChar d).isWhitespace = false ∧
    digitChar d ≠ '-' ∧ digitChar d ≠ '+' ∧ digitChar d ≠ ':' := by
  rcases d with _ | _ | _ | _ | _ | _ | _ | _ | _ | d
  · decide
  · decide
  · decide
  · decide
  · decide
  · decide
  · decide
  · decide
  · decide
  · exact (by decide :
      ('9').isDigit = true ∧ ('9').isWhitespace = false ∧
      '9' ≠ '-' ∧ '9' ≠ '+' ∧ '9' ≠ ':')

theorem digitChar_toNat (d : Nat) (h : d < 10) :
    (digitChar d).toNat - 48 = d := by
  rcases d with _ | _ | _ | _ | _ | _ | _ | _ | _ | d
  · decide
  · decide
  · decide
  · decide
  · decide
  · decide
  · decide
  · decide
  · decide
  · rcases d with _ | d
    · decide
    · omega

theorem natDigitsRev_lt10 (n : Nat) : ∀ d ∈ natDigitsRev n, d < 10 := by
  induction n using Nat.strong_induction_on with
  | _ n ih =>
    rw [natDigitsRev]
    by_cases h : n = 0
    · simp [h]
    · simp only [h, dif_neg, not_false_iff, List.mem_cons]
      intro d hd
      rcases hd with hd | hd
      · rw [hd]
        exact Nat.mod_lt n (by norm_num)
      · exact ih (n / 10)
          (Nat.div_lt_self (Nat.pos_of_ne_zero h) (by norm_num)) d hd

theorem natDigits_lt10 (n : Nat) : ∀ d ∈ natDigits n, d < 10 := by
  unfold natDigits
  by_cases h : n = 0
  · simp [h]
  · simp only [h, if_neg, not_false_iff, List.mem_reverse]
    exact natDigitsRev_lt10 n

theorem natDigits_ne_nil (n : Nat) : natDigits n ≠ [] := by
  unfold natDigits
  by_cases h : n = 0
  · simp [h]
  · simp only [h, if_neg, not_false_iff]
    intro hrev
    have : natDigitsRev n = [] := by
      have := congrArg List.reverse hrev
      simpa using this
    rw [natDigitsRev] at this
    simp [h] at this

theorem natToString_chars (n : Nat) :
    ∀ c ∈ (natToString n).data, ∃ d < 10, c = digitChar d := by
  intro c hc
  simp only [natToString, List.mem_map] at hc
  rcases hc with ⟨d, hd, hdc⟩
  exact ⟨d, natDigits_lt10 n d hd, hdc.symm⟩

theorem natToString_no_colon (n : Nat) : ':' ∉ (natToString n).data := by
  intro hc
  rcases natToString_chars n ':' hc with ⟨d, _, hd⟩
  exact (digitChar_facts d).2.2.2.2 hd.symm

theorem foldTen_natDigitsRev (n : Nat) :
    ((natDigitsRev n).reverse).foldl (fun a d => 10 * a + d) 0 = n := by
  induction n using Nat.strong_induction_on with
  | _ n ih =>
    rw [natDigitsRev]
    by_cases h : n = 0
    · simp [h]
    · simp only [h, dif_neg, not_false_iff, List.reverse_cons,
        List.foldl_append, List.foldl_cons, List.foldl_nil]
      rw [ih (n / 10) (Nat.div_lt_self (Nat.pos_of_ne_zero h) (by norm_num))]
      omega

theorem foldTen_natDigits (n : Nat) :
    (natDigits n).foldl (fun a d => 10 * a + d) 0 = n := by
  unfold natDigits
  by_cases h : n = 0
  · simp [h]
  · simp only [h, if_neg, not_false_iff]
    exact foldTen_natDigitsRev n

theorem digitsVal_map_digitChar (dl : List Nat) (hd : ∀ d ∈ dl, d < 10) :
    digitsVal (dl.map digitChar) = dl.foldl (fun a d => 10 * a + d) 0 := by
  unfold digitsVal
  rw [List.foldl_map]
  have key : ∀ (l : List Nat) (acc : Nat), (∀ d ∈ l, d < 10) →
      l.foldl (fun a c => 10 * a + ((digitChar c).toNat - 48)) acc =
        l.foldl (fun a d => 10 * a + d) acc := by
    intro l
    induction l with
    | nil => intro acc _; rfl
    | cons d ds ih =>
      intro acc hl
      simp only [List.foldl_cons]
      rw [digitChar_toNat d (hl d (List.mem_cons_self d ds))]
      exact ih _ (fun x hx => hl x (List.mem_cons_of_mem d hx))
  exact key dl 0 hd

theorem dropWhile_ws_digits (l : List Char)
    (h : ∀ c ∈ l, ∃ d < 10, c = digitChar d) :
    l.dropWhile Char.isWhitespace = l := by
  cases l with
  | nil => rfl
  | cons c cs =>
    rcases h c (List.mem_cons_self c cs) with ⟨d, _, hc⟩
    have : c.isWhitespace = false := by
      rw [hc]
      exact (digitChar_facts d).2.1
    simp [List.dropWhile_cons, this]

theorem parseDigitRun_natToString (n : Nat) :
    parseDigitRun (natToString n).data = some n := by
  have hchars := natToString_chars n
  have hne : (natToString n).data ≠ [] := by
    simp only [natToString]
    intro h
    exact natDigits_ne_nil n (by simpa using h)
  have hall : ∀ ch ∈ (natToString n).data, ch.isDigit = true := by
    intro ch hch
    rcases hchars ch hch with ⟨e, _, he⟩
    rw [he]
    exact (digitChar_facts e).1
  have htake : (natToString n).data.takeWhile Char.isDigit =
      (natToString n).data :=
    List.takeWhile_eq_self_iff.mpr hall
  have hemp : ((natToString n).data).isEmpty = false := by
    cases hdd : (natToString n).data with
    | nil => exact absurd hdd hne
    | cons _ _ => rfl
  have hval : digitsVal (natToString n).data = n := by
    have hrepr : (natToString n).data = (natDigits n).map digitChar := rfl
    rw [hrepr, digitsVal_map_digitChar _ (natDigits_lt10 n),
      foldTen_natDigits]
  unfold parseDigitRun
  rw [htake]
  simp [hemp, hval]

theorem jsParseIntDec_natToString (n : Nat) :
    jsParseIntDec (natToString n) = some (n : Int) := by
  have hchars := natToString_chars n
  have hne : (natToString n).data ≠ [] := by
    simp only [natToString]
    intro h
    exact natDigits_ne_nil n (by simpa using h)
  unfold jsParseIntDec
  rw [dropWhile_ws_digits _ hchars]
  cases hd : (natToString n).data with
  | nil => exact absurd hd hne
  | cons c cs =>
    have hcfact : ∃ d < 10, c = digitChar d := by
      apply hchars
      rw [hd]
      exact List.mem_cons_self c cs
    rcases hcfact with ⟨d, _, hc⟩
    have hnm : c ≠ '-' := by rw [hc]; exact (digitChar_facts d).2.2.1
    have hnp : c ≠ '+' := by rw [hc]; exact (digitChar_facts d).2.2.2.1
    simp only [hnm, hnp, if_false]
    rw [← hd, parseDigitRun_natToString]
    rfl

theorem splitOnChar_no_sep (ys : List Char) (h : ':' ∉ ys) :
    splitOnChar ':' ys = [ys] := by
  induction ys with
  | nil => rfl
  | cons c cs ih =>
    have hc : ¬ c = ':' := fun he => h (by rw [he]; exact List.mem_cons_self _ _)
    have hcs : ':' ∉ cs := fun hm => h (List.mem_cons_of_mem c hm)
    simp only [splitOnChar, hc, if_false, ih hcs]

theorem splitOnChar_append (xs ys : List Char) (h : ':' ∉ xs) :
    splitOnChar ':' (xs ++ ':' :: ys) = xs :: splitOnChar ':' ys := by
  induction xs with
  | nil => simp [splitOnChar]
  | cons c cs ih =>
    have hc : ¬ c = ':' := fun he => h (by rw [he]; exact List.mem_cons_self _ _)
    have hcs : ':' ∉ cs := fun hm => h (List.mem_cons_of_mem c hm)
    have hrec := ih hcs
    simp only [List.cons_append, splitOnChar, hc, if_false, List.append_eq,
      hrec]

theorem pairKeyParts (a b : Nat) :
    splitOnChar ':' (natToString a ++ ":" ++ natToString b).data =
      [(natToString a).data, (natToString b).data] := by
  have hdata : (natToString a ++ ":" ++ natToString b).data =
      (natToString a).data ++ ':' :: (natToString b).data := by
    rw [strData_append, strData_append, List.append_assoc]
    rfl
  rw [hdata, splitOnChar_append _ _ (natToString_no_colon a),
    splitOnChar_no_sep _ (natToString_no_colon b)]

theorem mkAAEdge_eq (a b : Nat) (w : ℚ) :
    mkAAEdge (natToString a ++ ":" ++ natToString b) w =
      ⟨"aa:" ++ (natToString a ++ ":" ++ natToString b),
        "anime:" ++ natToString a, "anime:" ++ natToString b,
        "anime-anime", roundWeight w⟩ := by
  unfold mkAAEdge
  rw [pairKeyParts]
  simp only [List.getD]
  rfl

theorem user_id_ne_anime_id (u s : String) :
    "user:" ++ u ≠ "anime:" ++ s := by
  intro h
  have := congrArg String.data h
  rw [strData_append, strData_append] at this
  have h2 : 'u' = 'a' := by
    have := congrArg (fun l => l.headI) this
    simpa using this
  exact absurd h2 (by decide)

theorem jsStartsWith_append (p s : String) :
    jsStartsWith (p ++ s) p = true := by
  unfold jsStartsWith
  rw [strData_append]
  have : p.data <+: p.data ++ s.data := ⟨s.data, rfl⟩
  exact List.isPrefixOf_iff_prefix.mpr this

theorem jsSliceFrom_user (u : String) :
    jsSliceFrom ("user:" ++ u) 5 = u := by
  unfold jsSliceFrom
  rw [strData_append]
  have : (("user:").data ++ u.data).drop 5 = u.data := by
    have h5 : ("user:").data.length = 5 := by decide
    rw [← h5]
    exact List.drop_left _ _
  rw [this]

theorem jsSliceFrom_anime (s : String) :
    jsSliceFrom ("anime:" ++ s) 6 = s := by
  unfold jsSliceFrom
  rw [strData_append]
  have : (("anime:").data ++ s.data).drop 6 = s.data := by
    have h6 : ("anime:").data.length = 6 := by decide
    rw [← h6]
    exact List.drop_left _ _
  rw [this]

theorem intToString_ofNat (n : Nat) :
    intToString (n : Int) = natToString n := by
  unfold intToString
  rw [if_neg (by omega)]
  rfl

/-! ## Structural invariants of createGraph's state -/

/-- The ids of a node list. -/
def idsOf (ns : List GraphNode) : List String := ns.map (fun n => n.id)

/-- Shape of every node createGraph builds: a user node user:u labelled with
the first eight characters of u, or an anime node anime:a. -/
def nodeWF (n : GraphNode) : Prop :=
  (n.nodeType = "user" ∧ ∃ u : String, n.id = "user:" ++ u ∧
    n.label = "User " ++ jsSliceTo u 8) ∨
  (n.nodeType = "anime" ∧ ∃ a : Nat, n.id = "anime:" ++ natToString a)

/-- A user node with the given stripped id is present. -/
def hasUserNode (ns : List GraphNode) (u : String) : Prop :=
  ∃ n ∈ ns, n.id = "user:" ++ u ∧ n.nodeType = "user"

/-- An anime node with the given id is present. -/
def hasAnimeNode (ns : List GraphNode) (a : Nat) : Prop :=
  ∃ n ∈ ns, n.id = "anime:" ++ natToString a ∧ n.nodeType = "anime"

/-- Shape of every user-anime edge createGraph pushes, with both endpoint
nodes present. -/
def uaEdgeWF (ns : List GraphNode) (e : GraphEdge) : Prop :=
  ∃ (u : String) (a : Nat),
    e.id = "ua:" ++ u ++ ":" ++ natToString a ∧
    e.source = "user:" ++ u ∧
    e.target = "anime:" ++ natToString a ∧
    e.edgeType = "user-anime" ∧
    hasUserNode ns u ∧ hasAnimeNode ns a

/-- Shape of every anime-anime edge createGraph emits, with both endpoint
nodes present. -/
def aaEdgeWF (ns : List GraphNode) (e : GraphEdge) : Prop :=
  ∃ a b : Nat,
    e.id = "aa:" ++ (natToString a ++ ":" ++ natToString b) ∧
    e.source = "anime:" ++ natToString a ∧
    e.target = "anime:" ++ natToString b ∧
    e.edgeType = "anime-anime" ∧
    hasAnimeNode ns a ∧ hasAnimeNode ns b

/-- Shape of every retained pair key, with both anime nodes present. -/
def pairKeyWF (ns : List GraphNode) (k : String) : Prop :=
  ∃ a b : Nat, k = natToString a ++ ":" ++ natToString b ∧
    hasAnimeNode ns a ∧ hasAnimeNode ns b

/-- The invariant carried through createGraph's user loop. -/
def buildWF (st : BuildState) : Prop :=
  (∀ n ∈ st.nodes, nodeWF n) ∧ (idsOf st.nodes).Nodup ∧
  (∀ e ∈ st.edges, uaEdgeWF st.nodes e) ∧
  (∀ p ∈ st.pairs.weights, pairKeyWF st.nodes p.1)

theorem any_id_iff (ns : List GraphNode) (k : String) :
    ns.any (fun m => m.id = k) = true ↔ k ∈ idsOf ns := by
  simp only [List.any_eq_true, idsOf, List.mem_map, decide_eq_true_eq]

theorem anime_node_type (n : GraphNode) (a : Nat) (hwf : nodeWF n)
    (hid : n.id = "anime:" ++ natToString a) : n.nodeType = "anime" := by
  rcases hwf with ⟨_, u, hu, _⟩ | ⟨ht, _⟩
  · rw [hid] at hu
    exact absurd hu.symm (user_id_ne_anime_id u (natToString a))
  · exact ht

theorem hasUserNode_append (ns l : List GraphNode) (u : String)
    (h : hasUserNode ns u) : hasUserNode (ns ++ l) u := by
  rcases h with ⟨n, hn, hp⟩
  exact ⟨n, List.mem_append_left l hn, hp⟩

theorem hasAnimeNode_append (ns l : List GraphNode) (a : Nat)
    (h : hasAnimeNode ns a) : hasAnimeNode (ns ++ l) a := by
  rcases h with ⟨n, hn, hp⟩
  exact ⟨n, List.mem_append_left l hn, hp⟩

theorem setNode_ids (ns : List GraphNode) (n : GraphNode) :
    idsOf (setNode ns n) = idsOf ns ∨
      (idsOf (setNode ns n) = idsOf ns ++ [n.id] ∧ n.id ∉ idsOf ns) := by
  unfold setNode
  by_cases h : ns.any (fun m => m.id = n.id) = true
  · left
    rw [if_pos h]
    unfold idsOf
    rw [List.map_map]
    apply List.map_congr_left
    intro m _
    by_cases hm : m.id = n.id
    · simp [hm]
    · simp [hm]
  · right
    rw [if_neg h]
    constructor
    · unfold idsOf
      simp
    · intro hmem
      exact h ((any_id_iff ns n.id).mpr hmem)

theorem setNode_nodup (ns : List GraphNode) (n : GraphNode)
    (h : (idsOf ns).Nodup) : (idsOf (setNode ns n)).Nodup := by
  rcases setNode_ids ns n with he | ⟨he, hnm⟩
  · rw [he]; exact h
  · rw [he]
    rw [List.nodup_append]
    exact ⟨h, List.nodup_singleton _, by
      intro x hx
      simp only [List.mem_singleton]
      intro hxe
      rw [hxe] at hx
      exact hnm hx⟩

theorem setNode_nodeWF (ns : List GraphNode) (n : GraphNode)
    (hns : ∀ m ∈ ns, nodeWF m) (hn : nodeWF n) :
    ∀ m ∈ setNode ns n, nodeWF m := by
  intro m hm
  unfold setNode at hm
  by_cases h : ns.any (fun q => q.id = n.id) = true
  · rw [if_pos h] at hm
    rcases List.mem_map.mp hm with ⟨m0, hm0, hme⟩
    by_cases h0 : m0.id = n.id
    · rw [← hme]; simp only [h0, if_true]; exact hn
    · rw [← hme]; simp only [h0, if_false]; exact hns m0 hm0
  · rw [if_neg h] at hm
    rcases List.mem_append.mp hm with hm | hm
    · exact hns m hm
    · rw [List.mem_singleton.mp hm]; exact hn

theorem hasUserNode_setNode_user (ns : List GraphNode) (uid lbl u : String)
    (h : hasUserNode ns u) :
    hasUserNode (setNode ns ⟨"user:" ++ uid, lbl, "user"⟩) u := by
  rcases h with ⟨m, hm, hid, hty⟩
  unfold setNode
  by_cases hany : ns.any (fun q =>
      q.id = (⟨"user:" ++ uid, lbl, "user"⟩ : GraphNode).id) = true
  · rw [if_pos hany]
    by_cases h0 : m.id = "user:" ++ uid
    · refine ⟨⟨"user:" ++ uid, lbl, "user"⟩, ?_, ?_, rfl⟩
      · apply List.mem_map.mpr
        exact ⟨m, hm, by simp [h0]⟩
      · rw [← h0, hid]
    · refine ⟨m, ?_, hid, hty⟩
      apply List.mem_map.mpr
      exact ⟨m, hm, by simp [h0]⟩
  · rw [if_neg hany]
    exact ⟨m, List.mem_append_left _ hm, hid, hty⟩

theorem hasAnimeNode_setNode_user (ns : List GraphNode) (uid lbl : String)
    (a : Nat) (h : hasAnimeNode ns a) :
    hasAnimeNode (setNode ns ⟨"user:" ++ uid, lbl, "user"⟩) a := by
  rcases h with ⟨m, hm, hid, hty⟩
  unfold setNode
  by_cases hany : ns.any (fun q =>
      q.id = (⟨"user:" ++ uid, lbl, "user"⟩ : GraphNode).id) = true
  · rw [if_pos hany]
    have h0 : ¬ m.id = "user:" ++ uid := by
      rw [hid]
      intro he
      exact user_id_ne_anime_id uid (natToString a) he.symm
    refine ⟨m, ?_, hid, hty⟩
    apply List.mem_map.mpr
    exact ⟨m, hm, by simp [h0]⟩
  · rw [if_neg hany]
    exact ⟨m, List.mem_append_left _ hm, hid, hty⟩

theorem hasUserNode_setNode_self (ns : List GraphNode) (uid lbl : String) :
    hasUserNode (setNode ns ⟨"user:" ++ uid, lbl, "user"⟩) uid := by
  unfold setNode
  by_cases hany : ns.any (fun q =>
      q.id = (⟨"user:" ++ uid, lbl, "user"⟩ : GraphNode).id) = true
  · rw [if_pos hany]
    rcases List.any_eq_true.mp hany with ⟨m, hm, hme⟩
    simp only [decide_eq_true_eq] at hme
    refine ⟨⟨"user:" ++ uid, lbl, "user"⟩, ?_, rfl, rfl⟩
    apply List.mem_map.mpr
    exact ⟨m, hm, by simp [hme]⟩
  · rw [if_neg hany]
    exact ⟨⟨"user:" ++ uid, lbl, "user"⟩,
      List.mem_append_right _ (List.mem_singleton_self _), rfl, rfl⟩

theorem uaEdgeWF_mono (ns ns2 : List GraphNode) (e : GraphEdge)
    (hu : ∀ v, hasUserNode ns v → hasUserNode ns2 v)
    (ha : ∀ a, hasAnimeNode ns a → hasAnimeNode ns2 a)
    (h : uaEdgeWF ns e) : uaEdgeWF ns2 e := by
  rcases h with ⟨u, a, h1, h2, h3, h4, h5, h6⟩
  exact ⟨u, a, h1, h2, h3, h4, hu u h5, ha a h6⟩

theorem pairKeyWF_mono (ns ns2 : List GraphNode) (k : String)
    (ha : ∀ a, hasAnimeNode ns a → hasAnimeNode ns2 a)
    (h : pairKeyWF ns k) : pairKeyWF ns2 k := by
  rcases h with ⟨a, b, h1, h2, h3⟩
  exact ⟨a, b, h1, ha a h2, ha b h3⟩

theorem addRatingFold_inv (uid : String) (rs : List Rating)
    (ns : List GraphNode) (es : List GraphEdge)
    (hwf : ∀ n ∈ ns, nodeWF n) (hnd : (idsOf ns).Nodup)
    (hes : ∀ e ∈ es, uaEdgeWF ns e)
    (huser : hasUserNode ns uid) :
    (∀ n ∈ (rs.foldl (addRating uid) (ns, es)).1, nodeWF n) ∧
    (idsOf (rs.foldl (addRating uid) (ns, es)).1).Nodup ∧
    (∀ e ∈ (rs.foldl (addRating uid) (ns, es)).2,
      uaEdgeWF (rs.foldl (addRating uid) (ns, es)).1 e) ∧
    hasUserNode (rs.foldl (addRating uid) (ns, es)).1 uid ∧
    (∀ v, hasUserNode ns v →
      hasUserNode (rs.foldl (addRating uid) (ns, es)).1 v) ∧
    (∀ a, hasAnimeNode ns a →
      hasAnimeNode (rs.foldl (addRating uid) (ns, es)).1 a) ∧
    (∀ r ∈ rs, hasAnimeNode (rs.foldl (addRating uid) (ns, es)).1
      r.animeId) := by
  induction rs generalizing ns es with
  | nil =>
    refine ⟨hwf, hnd, hes, huser, fun v h => h, fun a h => h, by simp⟩
  | cons r rs ih =>
    simp only [List.foldl_cons, addRating]
    by_cases hany :
        ns.any (fun m => m.id = "anime:" ++ natToString r.animeId) = true
    · simp only [hany, if_true]
      have hanimeR : hasAnimeNode ns r.animeId := by
        rcases List.any_eq_true.mp hany with ⟨m, hm, hme⟩
        simp only [decide_eq_true_eq] at hme
        exact ⟨m, hm, hme, anime_node_type m r.animeId (hwf m hm) hme⟩
      have hes2 : ∀ e ∈ es ++
          [(⟨"ua:" ++ uid ++ ":" ++ natToString r.animeId, "user:" ++ uid,
            "anime:" ++ natToString r.animeId, "user-anime",
            roundWeight r.normalizedScore⟩ : GraphEdge)],
          uaEdgeWF ns e := by
        intro e he
        rcases List.mem_append.mp he with he | he
        · exact hes e he
        · rw [List.mem_singleton.mp he]
          exact ⟨uid, r.animeId, rfl, rfl, rfl, rfl, huser, hanimeR⟩
      have hres := ih ns (es ++
        [⟨"ua:" ++ uid ++ ":" ++ natToString r.animeId, "user:" ++ uid,
          "anime:" ++ natToString r.animeId, "user-anime",
          roundWeight r.normalizedScore⟩]) hwf hnd hes2 huser
      rcases hres with ⟨g1, g2, g3, g4, g5, g6, g7⟩
      refine ⟨g1, g2, g3, g4, g5, g6, ?_⟩
      intro r2 hr2
      rcases List.mem_cons.mp hr2 with hr2 | hr2
      · rw [hr2]
        exact g6 r.animeId hanimeR
      · exact g7 r2 hr2
    · simp only [hany, Bool.false_eq_true, if_false]
      have hid_not : "anime:" ++ natToString r.animeId ∉ idsOf ns := by
        intro hmem
        exact hany ((any_id_iff ns _).mpr hmem)
      have hwf2 : ∀ n ∈ ns ++
          [(⟨"anime:" ++ natToString r.animeId, r.title, "anime"⟩ :
            GraphNode)], nodeWF n := by
        intro n hn
        rcases List.mem_append.mp hn with hn | hn
        · exact hwf n hn
        · rw [List.mem_singleton.mp hn]
          exact Or.inr ⟨rfl, r.animeId, rfl⟩
      have hnd2 : (idsOf (ns ++
          [(⟨"anime:" ++ natToString r.animeId, r.title, "anime"⟩ :
            GraphNode)])).Nodup := by
        unfold idsOf
        rw [List.map_append, List.nodup_append]
        refine ⟨hnd, List.nodup_singleton _, ?_⟩
        intro x hx
        simp only [List.map_cons, List.map_nil, List.mem_singleton]
        intro hxe
        apply hid_not
        rw [← hxe]
        exact hx
      have hmonoU : ∀ v, hasUserNode ns v → hasUserNode (ns ++
          [(⟨"anime:" ++ natToString r.animeId, r.title, "anime"⟩ :
            GraphNode)]) v :=
        fun v h => hasUserNode_append ns _ v h
      have hmonoA : ∀ a, hasAnimeNode ns a → hasAnimeNode (ns ++
          [(⟨"anime:" ++ natToString r.animeId, r.title, "anime"⟩ :
            GraphNode)]) a :=
        fun a h => hasAnimeNode_append ns _ a h
      have huser2 := hmonoU uid huser
      have hanimeR : hasAnimeNode (ns ++
          [(⟨"anime:" ++ natToString r.animeId, r.title, "anime"⟩ :
            GraphNode)]) r.animeId :=
        ⟨⟨"anime:" ++ natToString r.animeId, r.title, "anime"⟩,
          List.mem_append_right _ (List.mem_singleton_self _), rfl, rfl⟩
      have hes2 : ∀ e ∈ es ++
          [(⟨"ua:" ++ uid ++ ":" ++ natToString r.animeId, "user:" ++ uid,
            "anime:" ++ natToString r.animeId, "user-anime",
            roundWeight r.normalizedScore⟩ : GraphEdge)],
          uaEdgeWF (ns ++
            [(⟨"anime:" ++ natToString r.animeId, r.title, "anime"⟩ :
              GraphNode)]) e := by
        intro e he
        rcases List.mem_append.mp he with he | he
        · exact uaEdgeWF_mono ns _ e hmonoU hmonoA (hes e he)
        · rw [List.mem_singleton.mp he]
          exact ⟨uid, r.animeId, rfl, rfl, rfl, rfl, huser2, hanimeR⟩
      have hres := ih (ns ++
        [⟨"anime:" ++ natToString r.animeId, r.title, "anime"⟩]) (es ++
        [⟨"ua:" ++ uid ++ ":" ++ natToString r.animeId, "user:" ++ uid,
          "anime:" ++ natToString r.animeId, "user-anime",
          roundWeight r.normalizedScore⟩]) hwf2 hnd2 hes2 huser2
      rcases hres with ⟨g1, g2, g3, g4, g5, g6, g7⟩
      refine ⟨g1, g2, g3, g4, ?_, ?_, ?_⟩
      · intro v hv
        exact g5 v (hmonoU v hv)
      · intro a ha
        exact g6 a (hmonoA a ha)
      · intro r2 hr2
        rcases List.mem_cons.mp hr2 with hr2 | hr2
        · rw [hr2]
          exact g6 r.animeId hanimeR
        · exact g7 r2 hr2

theorem alSet_fst_mem {β : Type} (m : List (String × β)) (k : String)
    (v : β) : ∀ q ∈ alSet m k v, q.1 = k ∨ q ∈ m := by
  intro q hq
  unfold alSet at hq
  by_cases h : m.any (fun p => p.1 = k) = true
  · rw [if_pos h] at hq
    rcases List.mem_map.mp hq with ⟨q0, hq0, hqe⟩
    by_cases h0 : q0.1 = k
    · left
      rw [← hqe]
      simp [h0]
    · right
      rw [← hqe]
      simp only [h0, if_false]
      exact hq0
  · rw [if_neg h] at hq
    rcases List.mem_append.mp hq with hq | hq
    · exact Or.inr hq
    · left
      rw [List.mem_singleton.mp hq]

theorem pairsFold_keysWF (cap : Nat) (ns : List GraphNode)
    (contribs : List (String × ℚ)) (p : PairState)
    (hc : ∀ c ∈ contribs, pairKeyWF ns c.1)
    (hp : ∀ q ∈ p.weights, pairKeyWF ns q.1) :
    ∀ q ∈ (contribs.foldl (fun p c => pairUpdate cap p c.1 c.2) p).weights,
      pairKeyWF ns q.1 := by
  induction contribs generalizing p with
  | nil => simpa using hp
  | cons c cs ih =>
    simp only [List.foldl_cons]
    refine ih (pairUpdate cap p c.1 c.2) ?_ ?_
    · intro c2 hc2
      exact hc c2 (List.mem_cons_of_mem c hc2)
    · intro q hq
      unfold pairUpdate at hq
      cases hg : alGet p.weights c.1 with
      | none =>
        rw [hg] at hq
        by_cases hfull : 0 < cap ∧ cap ≤ p.weights.length
        · rw [if_pos hfull] at hq
          exact hp q hq
        · rw [if_neg hfull] at hq
          simp only at hq
          rcases alSet_fst_mem p.weights c.1 c.2 q hq with h | h
          · rw [h]
            exact hc c (List.mem_cons_self c cs)
          · exact hp q h
      | some w =>
        rw [hg] at hq
        simp only at hq
        rcases alSet_fst_mem p.weights c.1 _ q hq with h | h
        · rw [h]
          exact hc c (List.mem_cons_self c cs)
        · exact hp q h

theorem userPairContribs_mem (rs : List Rating) :
    ∀ c ∈ userPairContribs rs,
      ∃ l ∈ rs, ∃ r2 ∈ rs, c.1 = pairKey l.animeId r2.animeId := by
  induction rs with
  | nil => simp [userPairContribs]
  | cons l rest ih =>
    intro c hc
    simp only [userPairContribs, List.mem_append] at hc
    rcases hc with hc | hc
    · rcases List.mem_map.mp hc with ⟨r2, hr2, hce⟩
      exact ⟨l, List.mem_cons_self l rest, r2,
        List.mem_cons_of_mem l hr2, by rw [← hce]⟩
    · rcases ih c hc with ⟨l2, hl2, r2, hr2, he⟩
      exact ⟨l2, List.mem_cons_of_mem l hl2, r2,
        List.mem_cons_of_mem l hr2, he⟩

theorem hasAnime_minmax (ns : List GraphNode) (a b : Nat)
    (ha : hasAnimeNode ns a) (hb : hasAnimeNode ns b) :
    hasAnimeNode ns (min a b) ∧ hasAnimeNode ns (max a b) := by
  rcases Nat.le_total a b with h | h
  · rw [Nat.min_eq_left h, Nat.max_eq_right h]
    exact ⟨ha, hb⟩
  · rw [Nat.min_eq_right h, Nat.max_eq_left h]
    exact ⟨hb, ha⟩

theorem processUser_WF (mrpu cap : Nat) (st : BuildState)
    (user : UserRatings) (h : buildWF st) :
    buildWF (processUser mrpu cap st user) := by
  rcases h with ⟨hwf, hnd, hes, hpairs⟩
  have hunWF : nodeWF ⟨"user:" ++ user.userId,
      "User " ++ jsSliceTo user.userId 8, "user"⟩ :=
    Or.inl ⟨rfl, user.userId, rfl, rfl⟩
  have hwf1 := setNode_nodeWF st.nodes _ hwf hunWF
  have hnd1 := setNode_nodup st.nodes
    ⟨"user:" ++ user.userId, "User " ++ jsSliceTo user.userId 8, "user"⟩ hnd
  have hmonoU1 : ∀ v, hasUserNode st.nodes v → hasUserNode
      (setNode st.nodes ⟨"user:" ++ user.userId,
        "User " ++ jsSliceTo user.userId 8, "user"⟩) v :=
    fun v hv => hasUserNode_setNode_user st.nodes user.userId _ v hv
  have hmonoA1 : ∀ a, hasAnimeNode st.nodes a → hasAnimeNode
      (setNode st.nodes ⟨"user:" ++ user.userId,
        "User " ++ jsSliceTo user.userId 8, "user"⟩) a :=
    fun a ha => hasAnimeNode_setNode_user st.nodes user.userId _ a ha
  have huser1 := hasUserNode_setNode_self st.nodes user.userId
    ("User " ++ jsSliceTo user.userId 8)
  have hes1 : ∀ e ∈ st.edges, uaEdgeWF
      (setNode st.nodes ⟨"user:" ++ user.userId,
        "User " ++ jsSliceTo user.userId 8, "user"⟩) e :=
    fun e he => uaEdgeWF_mono _ _ e hmonoU1 hmonoA1 (hes e he)
  have hinner := addRatingFold_inv user.userId
    (truncRatings mrpu user.ratings)
    (setNode st.nodes ⟨"user:" ++ user.userId,
      "User " ++ jsSliceTo user.userId 8, "user"⟩)
    st.edges hwf1 hnd1 hes1 huser1
  rcases hinner with ⟨g1, g2, g3, _, _, g6, g7⟩
  have hcontribs : ∀ c ∈ userPairContribs (truncRatings mrpu user.ratings),
      pairKeyWF ((truncRatings mrpu user.ratings).foldl
        (addRating user.userId)
        (setNode st.nodes ⟨"user:" ++ user.userId,
          "User " ++ jsSliceTo user.userId 8, "user"⟩, st.edges)).1 c.1 := by
    intro c hc
    rcases userPairContribs_mem _ c hc with ⟨l, hl, r2, hr2, he⟩
    have hal := g7 l hl
    have har := g7 r2 hr2
    rcases hasAnime_minmax _ _ _ hal har with ⟨hmin, hmax⟩
    exact ⟨min l.animeId r2.animeId, max l.animeId r2.animeId,
      by rw [he]; rfl, hmin, hmax⟩
  have hold : ∀ q ∈ st.pairs.weights, pairKeyWF
      ((truncRatings mrpu user.ratings).foldl (addRating user.userId)
        (setNode st.nodes ⟨"user:" ++ user.userId,
          "User " ++ jsSliceTo user.userId 8, "user"⟩, st.edges)).1 q.1 := by
    intro q hq
    exact pairKeyWF_mono _ _ q.1 (fun a ha => g6 a (hmonoA1 a ha))
      (hpairs q hq)
  exact ⟨g1, g2, g3,
    pairsFold_keysWF cap _ _ st.pairs hcontribs hold⟩

theorem buildFold_WF (mrpu cap : Nat) (users : List UserRatings)
    (st : BuildState) (h : buildWF st) :
    buildWF (users.foldl (processUser mrpu cap) st) := by
  induction users generalizing st with
  | nil => simpa using h
  | cons u us ih => exact ih _ (processUser_WF mrpu cap st u h)

theorem mkAAEdge_WF (ns : List GraphNode) (k : String) (w : ℚ)
    (h : pairKeyWF ns k) : aaEdgeWF ns (mkAAEdge k w) := by
  rcases h with ⟨a, b, hk, ha, hb⟩
  rw [hk, mkAAEdge_eq]
  exact ⟨a, b, rfl, rfl, rfl, rfl, ha, hb⟩

/-- C10: every graph createGraph returns is internally consistent: each
edge's endpoints occur among the node ids, nodeCount equals the node list
length and equals userCount + animeCount, and edgeCount equals the edge
list length. -/
theorem c10_graph_internal_consistency (gen : String)
    (users : List UserRatings) (mrpu cap : Nat) :
    (∀ e ∈ (createGraph gen users mrpu cap).graph.edges,
      e.source ∈ idsOf (createGraph gen users mrpu cap).graph.nodes ∧
      e.target ∈ idsOf (createGraph gen users mrpu cap).graph.nodes) ∧
    (createGraph gen users mrpu cap).graph.nodeCount =
      (createGraph gen users mrpu cap).graph.nodes.length ∧
    (createGraph gen users mrpu cap).graph.nodeCount =
      (createGraph gen users mrpu cap).graph.userCount +
        (createGraph gen users mrpu cap).graph.animeCount ∧
    (createGraph gen users mrpu cap).graph.edgeCount =
      (createGraph gen users mrpu cap).graph.edges.length := by
  have hWF := buildFold_WF mrpu cap users ⟨[], [], ⟨[], 0⟩⟩
    ⟨by simp, by simp [idsOf], by simp, by simp⟩
  rcases hWF with ⟨hwf, hnd, hes, hpairs⟩
  refine ⟨?_, rfl, ?_, rfl⟩
  · intro e he
    simp only [createGraph, List.mem_append] at he
    rcases he with he | he
    · rcases hes e he with ⟨u, a, _, h2, h3, _, h5, h6⟩
      constructor
      · rcases h5 with ⟨n, hn, hid, _⟩
        simp only [createGraph, idsOf]
        exact List.mem_map.mpr ⟨n, hn, by rw [hid, h2]⟩
      · rcases h6 with ⟨n, hn, hid, _⟩
        simp only [createGraph, idsOf]
        exact List.mem_map.mpr ⟨n, hn, by rw [hid, h3]⟩
    · rcases List.mem_map.mp he with ⟨p, hp, hpe⟩
      have := mkAAEdge_WF _ p.1 p.2 (hpairs p hp)
      rw [hpe] at this
      rcases this with ⟨a, b, _, h2, h3, _, h5, h6⟩
      constructor
      · rcases h5 with ⟨n, hn, hid, _⟩
        simp only [createGraph, idsOf]
        exact List.mem_map.mpr ⟨n, hn, by rw [hid, h2]⟩
      · rcases h6 with ⟨n, hn, hid, _⟩
        simp only [createGraph, idsOf]
        exact List.mem_map.mpr ⟨n, hn, by rw [hid, h3]⟩
  · simp only [createGraph]
    have hle := List.length_filter_le (fun n => decide (n.nodeType = "user"))
      (users.foldl (processUser mrpu cap) ⟨[], [], ⟨[], 0⟩⟩).nodes
    omega

/-! ## The compact encoding inverts on well-formed graphs -/

theorem compactNode_fold (nodes : List GraphNode) (acc0 : CompactAcc)
    (hwf : ∀ n ∈ nodes, nodeWF n) :
    (nodes.foldl compactNodeStep acc0).userIds =
      acc0.userIds ++ (nodes.filter (fun n => n.nodeType = "user")).map
        (fun n => jsSliceFrom n.id 5) ∧
    (nodes.foldl compactNodeStep acc0).anime =
      acc0.anime ++ (nodes.filter (fun n => ¬ n.nodeType = "user")).map
        (fun n => ((jsParseIntDec (jsSliceFrom n.id 6)).getD 0, n.label)) ∧
    (nodes.foldl compactNodeStep acc0).userIdx =
      acc0.userIdx ++ idxFrom acc0.userIds.length
        ((nodes.filter (fun n => n.nodeType = "user")).map (fun n => n.id)) ∧
    (nodes.foldl compactNodeStep acc0).animeIdx =
      acc0.animeIdx ++ idxFrom acc0.anime.length
        ((nodes.filter (fun n => ¬ n.nodeType = "user")).map
          (fun n => n.id)) := by
  induction nodes generalizing acc0 with
  | nil => simp [idxFrom]
  | cons n ns ih =>
    have hwfn := hwf n (List.mem_cons_self n ns)
    have hwfr : ∀ m ∈ ns, nodeWF m :=
      fun m hm => hwf m (List.mem_cons_of_mem n hm)
    by_cases ht : n.nodeType = "user"
    · rcases hwfn with ⟨_, u, hid, _⟩ | ⟨hta, _⟩
      · have hstart : jsStartsWith n.id "user:" = true := by
          rw [hid]
          exact jsStartsWith_append _ u
        have hstep : compactNodeStep acc0 n =
            { acc0 with
                userIds := acc0.userIds ++ [jsSliceFrom n.id 5]
                userIdx := acc0.userIdx ++
                  [(n.id, acc0.userIds.length)] } := by
          simp [compactNodeStep, ht, hstart]
        simp only [List.foldl_cons, hstep]
        rcases ih { acc0 with
            userIds := acc0.userIds ++ [jsSliceFrom n.id 5]
            userIdx := acc0.userIdx ++ [(n.id, acc0.userIds.length)] }
          hwfr with ⟨e1, e2, e3, e4⟩
        refine ⟨?_, ?_, ?_, ?_⟩
        · rw [e1]
          simp [List.filter_cons, ht]
        · rw [e2]
          simp [List.filter_cons, ht]
        · rw [e3]
          simp [List.filter_cons, ht, idxFrom]
        · rw [e4]
          simp [List.filter_cons, ht]
      · exact absurd ht (by rw [hta]; decide)
    · rcases hwfn with ⟨htu, _⟩ | ⟨hta, a, hid⟩
      · exact absurd htu ht
      · have hstart : jsStartsWith n.id "anime:" = true := by
          rw [hid]
          exact jsStartsWith_append _ (natToString a)
        have hparse : jsParseIntDec (jsSliceFrom n.id 6) = some (a : Int) := by
          rw [hid, jsSliceFrom_anime, jsParseIntDec_natToString]
        have hstep : compactNodeStep acc0 n =
            { acc0 with
                anime := acc0.anime ++
                  [((jsParseIntDec (jsSliceFrom n.id 6)).getD 0, n.label)]
                animeIdx := acc0.animeIdx ++
                  [(n.id, acc0.anime.length)] } := by
          simp [compactNodeStep, ht, hstart, hparse]
        simp only [List.foldl_cons, hstep]
        rcases ih { acc0 with
            anime := acc0.anime ++
              [((jsParseIntDec (jsSliceFrom n.id 6)).getD 0, n.label)]
            animeIdx := acc0.animeIdx ++ [(n.id, acc0.anime.length)] }
          hwfr with ⟨e1, e2, e3, e4⟩
        refine ⟨?_, ?_, ?_, ?_⟩
        · rw [e1]
          simp [List.filter_cons, ht]
        · rw [e2]
          simp [List.filter_cons, ht, idxFrom]
        · rw [e3]
          simp [List.filter_cons, ht]
        · rw [e4]
          simp [List.filter_cons, ht, idxFrom]

theorem alGet_idxFrom (keys : List String) (s : Nat) (k : String)
    (hk : k ∈ keys) :
    ∃ j, alGet (idxFrom s keys) k = some (s + j) ∧ j < keys.length ∧
      keys.getD j "" = k := by
  induction keys generalizing s with
  | nil => cases hk
  | cons k0 ks ih =>
    by_cases h0 : k0 = k
    · refine ⟨0, ?_, by simp, by simpa using h0⟩
      simp [idxFrom, alGet, List.find?, h0]
    · have hk2 : k ∈ ks := by
        rcases List.mem_cons.mp hk with h | h
        · exact absurd h.symm h0
        · exact h
      rcases ih (s + 1) hk2 with ⟨j, hg, hlt, hkey⟩
      refine ⟨j + 1, ?_, by simpa using Nat.succ_lt_succ hlt, by
        simpa using hkey⟩
      have hstep : alGet (idxFrom s (k0 :: ks)) k =
          alGet (idxFrom (s + 1) ks) k := by
        simp [idxFrom, alGet, List.find?_cons, h0]
      rw [hstep, hg]
      congr 1
      omega

theorem edgeFold_ua (userIdx animeIdx : List (String × Nat))
    (ual : List GraphEdge)
    (acc : List (Nat × Nat × ℚ) × List (Nat × Nat × ℚ))
    (hua : ∀ e ∈ ual, e.edgeType = "user-anime" ∧
      (∃ i, alGet userIdx e.source = some i) ∧
      (∃ j, alGet animeIdx e.target = some j)) :
    ual.foldl (compactEdgeStep userIdx animeIdx) acc =
      (acc.1 ++ ual.map (fun e => ((alGet userIdx e.source).getD 0,
        (alGet animeIdx e.target).getD 0, e.weight)), acc.2) := by
  induction ual generalizing acc with
  | nil => simp
  | cons e es ih =>
    obtain ⟨hty, ⟨i, hi⟩, ⟨j, hj⟩⟩ := hua e (List.mem_cons_self e es)
    have hstep : compactEdgeStep userIdx animeIdx acc e =
        (acc.1 ++ [(i, j, e.weight)], acc.2) := by
      simp [compactEdgeStep, hty, hi, hj]
    rw [List.foldl_cons, hstep,
      ih _ (fun e2 he2 => hua e2 (List.mem_cons_of_mem e he2))]
    simp [hi, hj]

theorem edgeFold_aa (userIdx animeIdx : List (String × Nat))
    (aal : List GraphEdge)
    (acc : List (Nat × Nat × ℚ) × List (Nat × Nat × ℚ))
    (haa : ∀ e ∈ aal, e.edgeType = "anime-anime" ∧
      (∃ i, alGet animeIdx e.source = some i) ∧
      (∃ j, alGet animeIdx e.target = some j)) :
    aal.foldl (compactEdgeStep userIdx animeIdx) acc =
      (acc.1, acc.2 ++ aal.map (fun e => ((alGet animeIdx e.source).getD 0,
        (alGet animeIdx e.target).getD 0, e.weight))) := by
  induction aal generalizing acc with
  | nil => simp
  | cons e es ih =>
    obtain ⟨hty, ⟨i, hi⟩, ⟨j, hj⟩⟩ := haa e (List.mem_cons_self e es)
    have htyn : ¬ e.edgeType = "user-anime" := by
      rw [hty]
      decide
    have hstep : compactEdgeStep userIdx animeIdx acc e =
        (acc.1, acc.2 ++ [(i, j, e.weight)]) := by
      simp [compactEdgeStep, htyn, hi, hj]
    rw [List.foldl_cons, hstep,
      ih _ (fun e2 he2 => haa e2 (List.mem_cons_of_mem e he2))]
    simp [hi, hj]

theorem getD_map_lt {α β : Type} (f : α → β) (l : List α) (j : Nat)
    (h : j < l.length) (d : β) (d2 : α) :
    (l.map f).getD j d = f (l.getD j d2) := by
  have h2 : j < (l.map f).length := by simpa using h
  rw [List.getD_eq_getElem _ _ h2, List.getD_eq_getElem _ _ h,
    List.getElem_map]

theorem resolveUser (nodes : List GraphNode) (u : String)
    (h : hasUserNode nodes u) :
    ∃ j, alGet (idxFrom 0 ((nodes.filter
        (fun n => n.nodeType = "user")).map (fun n => n.id)))
        ("user:" ++ u) = some j ∧
      j < (nodes.filter (fun n => n.nodeType = "user")).length ∧
      ((nodes.filter (fun n => n.nodeType = "user")).map
        (fun n => jsSliceFrom n.id 5)).getD j "" = u := by
  rcases h with ⟨n, hn, hid, hty⟩
  have hmem : ("user:" ++ u) ∈ (nodes.filter
      (fun n => n.nodeType = "user")).map (fun n => n.id) :=
    List.mem_map.mpr ⟨n, List.mem_filter.mpr ⟨hn, by simp [hty]⟩, hid⟩
  rcases alGet_idxFrom _ 0 _ hmem with ⟨j, hg, hlt, hkey⟩
  have hlt2 : j < (nodes.filter (fun n => n.nodeType = "user")).length := by
    simpa using hlt
  refine ⟨j, by simpa using hg, hlt2, ?_⟩
  rw [getD_map_lt _ _ j hlt2 "" ⟨"", "", ""⟩]
  have hkid : ((nodes.filter (fun n => n.nodeType = "user")).getD j
      ⟨"", "", ""⟩).id = "user:" ++ u := by
    have h2 := getD_map_lt (fun n => n.id) _ j hlt2 "" (⟨"", "", ""⟩ :
      GraphNode)
    rw [← h2]
    exact hkey
  rw [hkid, jsSliceFrom_user]

theorem resolveAnime (nodes : List GraphNode) (a : Nat)
    (hwf : ∀ n ∈ nodes, nodeWF n) (h : hasAnimeNode nodes a) :
    ∃ j, alGet (idxFrom 0 ((nodes.filter
        (fun n => ¬ n.nodeType = "user")).map (fun n => n.id)))
        ("anime:" ++ natToString a) = some j ∧
      j < (nodes.filter (fun n => ¬ n.nodeType = "user")).length ∧
      (((nodes.filter (fun n => ¬ n.nodeType = "user")).map
        (fun n => ((jsParseIntDec (jsSliceFrom n.id 6)).getD 0,
          n.label))).getD j (0, "")).1 = (a : Int) := by
  rcases h with ⟨n, hn, hid, hty⟩
  have htyn : ¬ n.nodeType = "user" := by
    rw [hty]
    decide
  have hmem : ("anime:" ++ natToString a) ∈ (nodes.filter
      (fun n => ¬ n.nodeType = "user")).map (fun n => n.id) :=
    List.mem_map.mpr ⟨n, List.mem_filter.mpr ⟨hn, by simp [htyn]⟩, hid⟩
  rcases alGet_idxFrom _ 0 _ hmem with ⟨j, hg, hlt, hkey⟩
  have hlt2 : j < (nodes.filter
      (fun n => ¬ n.nodeType = "user")).length := by
    simpa using hlt
  refine ⟨j, by simpa using hg, hlt2, ?_⟩
  rw [getD_map_lt _ _ j hlt2 (0, "") ⟨"", "", ""⟩]
  have hkid : ((nodes.filter (fun n => ¬ n.nodeType = "user")).getD j
      ⟨"", "", ""⟩).id = "anime:" ++ natToString a := by
    have h2 := getD_map_lt (fun n => n.id) _ j hlt2 "" (⟨"", "", ""⟩ :
      GraphNode)
    rw [← h2]
    exact hkey
  simp only [hkid, jsSliceFrom_anime, jsParseIntDec_natToString,
    Option.getD_some]

theorem filter_partition_length (nodes : List GraphNode) :
    (nodes.filter (fun n => n.nodeType = "user")).length +
      (nodes.filter (fun n => ¬ n.nodeType = "user")).length =
      nodes.length := by
  have hco : nodes.filter (fun n => ¬ n.nodeType = "user") =
      nodes.filter (fun n => !(decide (n.nodeType = "user"))) := by
    apply List.filter_congr
    intro n _
    exact decide_not
  rw [hco]
  have := (List.filter_append_perm
    (fun n : GraphNode => n.nodeType = "user") nodes).length_eq
  simpa using this

theorem decompact_roundtrip (G : GraphData)
    (hwf : ∀ n ∈ G.nodes, nodeWF n)
    (ua aa : List GraphEdge) (hedges : G.edges = ua ++ aa)
    (hua : ∀ e ∈ ua, uaEdgeWF G.nodes e)
    (haa : ∀ e ∈ aa, aaEdgeWF G.nodes e) :
    (decompactGraph (createCompactGraph G)).edges = G.edges ∧
    (decompactGraph (createCompactGraph G)).nodes.Perm G.nodes ∧
    (decompactGraph (createCompactGraph G)).generatedAt = G.generatedAt ∧
    (decompactGraph (createCompactGraph G)).nodeCount = G.nodes.length ∧
    (decompactGraph (createCompactGraph G)).edgeCount = G.edges.length ∧
    (decompactGraph (createCompactGraph G)).userCount =
      (G.nodes.filter (fun n => n.nodeType = "user")).length ∧
    (decompactGraph (createCompactGraph G)).animeCount =
      (G.nodes.filter (fun n => ¬ n.nodeType = "user")).length := by
  obtain ⟨hU, hA, hUx, hAx⟩ :=
    compactNode_fold G.nodes ⟨[], [], [], []⟩ hwf
  simp only [List.nil_append] at hU hA hUx hAx
  have huaCond : ∀ e ∈ ua, e.edgeType = "user-anime" ∧
      (∃ i, alGet (G.nodes.foldl compactNodeStep
        ⟨[], [], [], []⟩).userIdx e.source = some i) ∧
      (∃ j, alGet (G.nodes.foldl compactNodeStep
        ⟨[], [], [], []⟩).animeIdx e.target = some j) := by
    intro e he
    rcases hua e he with ⟨u, a, _, h2, h3, h4, h5, h6⟩
    refine ⟨h4, ?_, ?_⟩
    · rcases resolveUser G.nodes u h5 with ⟨i, hgi, _, _⟩
      exact ⟨i, by rw [hUx, h2]; exact hgi⟩
    · rcases resolveAnime G.nodes a hwf h6 with ⟨j, hgj, _, _⟩
      exact ⟨j, by rw [hAx, h3]; exact hgj⟩
  have haaCond : ∀ e ∈ aa, e.edgeType = "anime-anime" ∧
      (∃ i, alGet (G.nodes.foldl compactNodeStep
        ⟨[], [], [], []⟩).animeIdx e.source = some i) ∧
      (∃ j, alGet (G.nodes.foldl compactNodeStep
        ⟨[], [], [], []⟩).animeIdx e.target = some j) := by
    intro e he
    rcases haa e he with ⟨a, b, _, h2, h3, h4, h5, h6⟩
    refine ⟨h4, ?_, ?_⟩
    · rcases resolveAnime G.nodes a hwf h5 with ⟨i, hgi, _, _⟩
      exact ⟨i, by rw [hAx, h2]; exact hgi⟩
    · rcases resolveAnime G.nodes b hwf h6 with ⟨j, hgj, _, _⟩
      exact ⟨j, by rw [hAx, h3]; exact hgj⟩
  have hfold : G.edges.foldl (compactEdgeStep
      (G.nodes.foldl compactNodeStep ⟨[], [], [], []⟩).userIdx
      (G.nodes.foldl compactNodeStep ⟨[], [], [], []⟩).animeIdx)
      ([], []) =
      (ua.map (fun e => ((alGet (G.nodes.foldl compactNodeStep
          ⟨[], [], [], []⟩).userIdx e.source).getD 0,
        (alGet (G.nodes.foldl compactNodeStep
          ⟨[], [], [], []⟩).animeIdx e.target).getD 0, e.weight)),
       aa.map (fun e => ((alGet (G.nodes.foldl compactNodeStep
          ⟨[], [], [], []⟩).animeIdx e.source).getD 0,
        (alGet (G.nodes.foldl compactNodeStep
          ⟨[], [], [], []⟩).animeIdx e.target).getD 0, e.weight))) := by
    rw [hedges, List.foldl_append, edgeFold_ua _ _ ua ([], []) huaCond,
      edgeFold_aa _ _ aa _ haaCond]
    simp
  have hCua : (createCompactGraph G).ua =
      ua.map (fun e => ((alGet (G.nodes.foldl compactNodeStep
          ⟨[], [], [], []⟩).userIdx e.source).getD 0,
        (alGet (G.nodes.foldl compactNodeStep
          ⟨[], [], [], []⟩).animeIdx e.target).getD 0, e.weight)) := by
    simp only [createCompactGraph]
    rw [hfold]
  have hCaa : (createCompactGraph G).aa =
      aa.map (fun e => ((alGet (G.nodes.foldl compactNodeStep
          ⟨[], [], [], []⟩).animeIdx e.source).getD 0,
        (alGet (G.nodes.foldl compactNodeStep
          ⟨[], [], [], []⟩).animeIdx e.target).getD 0, e.weight)) := by
    simp only [createCompactGraph]
    rw [hfold]
  have hCuserIds : (createCompactGraph G).userIds =
      (G.nodes.filter (fun n => n.nodeType = "user")).map
        (fun n => jsSliceFrom n.id 5) := by
    simp only [createCompactGraph]
    rw [hU]
  have hCanime : (createCompactGraph G).anime =
      (G.nodes.filter (fun n => ¬ n.nodeType = "user")).map
        (fun n => ((jsParseIntDec (jsSliceFrom n.id 6)).getD 0,
          n.label)) := by
    simp only [createCompactGraph]
    rw [hA]
  have hUAeq : ua.map ((decodeUAEdge (createCompactGraph G)) ∘
      (fun e => ((alGet (G.nodes.foldl compactNodeStep
        ⟨[], [], [], []⟩).userIdx e.source).getD 0,
      (alGet (G.nodes.foldl compactNodeStep
        ⟨[], [], [], []⟩).animeIdx e.target).getD 0, e.weight))) = ua := by
    have hpt : ∀ e ∈ ua, ((decodeUAEdge (createCompactGraph G)) ∘
        (fun e => ((alGet (G.nodes.foldl compactNodeStep
          ⟨[], [], [], []⟩).userIdx e.source).getD 0,
        (alGet (G.nodes.foldl compactNodeStep
          ⟨[], [], [], []⟩).animeIdx e.target).getD 0, e.weight))) e =
        (fun e => e) e := by
      intro e he
      rcases hua e he with ⟨u, a, h1, h2, h3, h4, h5, h6⟩
      rcases resolveUser G.nodes u h5 with ⟨i, hgi, _, hdi⟩
      rcases resolveAnime G.nodes a hwf h6 with ⟨j, hgj, _, hdj⟩
      have hgi2 : alGet (G.nodes.foldl compactNodeStep
          ⟨[], [], [], []⟩).userIdx e.source = some i := by
        rw [hUx, h2]
        exact hgi
      have hgj2 : alGet (G.nodes.foldl compactNodeStep
          ⟨[], [], [], []⟩).animeIdx e.target = some j := by
        rw [hAx, h3]
        exact hgj
      have hdi2 : (createCompactGraph G).userIds.getD i "" = u := by
        rw [hCuserIds]
        exact hdi
      have hdj2 : ((createCompactGraph G).anime.getD j (0, "")).1 =
          (a : Int) := by
        rw [hCanime]
        exact hdj
      simp only [Function.comp_apply, hgi2, hgj2, Option.getD_some]
      simp only [decodeUAEdge, hdi2, hdj2, intToString_ofNat]
      calc (⟨"ua:" ++ u ++ ":" ++ natToString a, "user:" ++ u,
          "anime:" ++ natToString a, "user-anime", e.weight⟩ : GraphEdge) =
          ⟨e.id, e.source, e.target, e.edgeType, e.weight⟩ := by
            rw [h1, h2, h3, h4]
        _ = e := rfl
    rw [List.map_congr_left hpt]
    exact List.map_id ua
  have hAAeq : aa.map ((decodeAAEdge (createCompactGraph G)) ∘
      (fun e => ((alGet (G.nodes.foldl compactNodeStep
        ⟨[], [], [], []⟩).animeIdx e.source).getD 0,
      (alGet (G.nodes.foldl compactNodeStep
        ⟨[], [], [], []⟩).animeIdx e.target).getD 0, e.weight))) = aa := by
    have hpt : ∀ e ∈ aa, ((decodeAAEdge (createCompactGraph G)) ∘
        (fun e => ((alGet (G.nodes.foldl compactNodeStep
          ⟨[], [], [], []⟩).animeIdx e.source).getD 0,
        (alGet (G.nodes.foldl compactNodeStep
          ⟨[], [], [], []⟩).animeIdx e.target).getD 0, e.weight))) e =
        (fun e => e) e := by
      intro e he
      rcases haa e he with ⟨a, b, h1, h2, h3, h4, h5, h6⟩
      rcases resolveAnime G.nodes a hwf h5 with ⟨i, hgi, _, hdi⟩
      rcases resolveAnime G.nodes b hwf h6 with ⟨j, hgj, _, hdj⟩
      have hgi2 : alGet (G.nodes.foldl compactNodeStep
          ⟨[], [], [], []⟩).animeIdx e.source = some i := by
        rw [hAx, h2]
        exact hgi
      have hgj2 : alGet (G.nodes.foldl compactNodeStep
          ⟨[], [], [], []⟩).animeIdx e.target = some j := by
        rw [hAx, h3]
        exact hgj
      have hdi2 : ((createCompactGraph G).anime.getD i (0, "")).1 =
          (a : Int) := by
        rw [hCanime]
        exact hdi
      have hdj2 : ((createCompactGraph G).anime.getD j (0, "")).1 =
          (b : Int) := by
        rw [hCanime]
        exact hdj
      simp only [Function.comp_apply, hgi2, hgj2, Option.getD_some]
      simp only [decodeAAEdge, hdi2, hdj2, intToString_ofNat]
      calc (⟨"aa:" ++ natToString a ++ ":" ++ natToString b,
          "anime:" ++ natToString a, "anime:" ++ natToString b,
          "anime-anime", e.weight⟩ : GraphEdge) =
          ⟨e.id, e.source, e.target, e.edgeType, e.weight⟩ := by
            rw [h2, h3, h4]
            rw [show e.id = "aa:" ++ natToString a ++ ":" ++ natToString b
              from by rw [h1]; simp [String.append_assoc]]
        _ = e := rfl
    rw [List.map_congr_left hpt]
    exact List.map_id aa
  have hUN : (G.nodes.filter (fun n => n.nodeType = "user")).map
      (decodeUserNode ∘ (fun n => jsSliceFrom n.id 5)) =
      G.nodes.filter (fun n => n.nodeType = "user") := by
    have hpt : ∀ n ∈ G.nodes.filter (fun n => n.nodeType = "user"),
        (decodeUserNode ∘ (fun n => jsSliceFrom n.id 5)) n =
        (fun n => n) n := by
      intro n hn
      have hmemf := List.mem_filter.mp hn
      have htyu : n.nodeType = "user" := by simpa using hmemf.2
      rcases hwf n hmemf.1 with ⟨_, u, hid, hlbl⟩ | ⟨hty, _⟩
      · simp only [Function.comp_apply, hid, jsSliceFrom_user,
          decodeUserNode]
        calc (⟨"user:" ++ u, "User " ++ jsSliceTo u 8, "user"⟩ :
            GraphNode) = ⟨n.id, n.label, n.nodeType⟩ := by
              rw [hid, hlbl, htyu]
          _ = n := rfl
      · rw [hty] at htyu
        exact absurd htyu (by decide)
    rw [List.map_congr_left hpt]
    exact List.map_id _
  have hAN : (G.nodes.filter (fun n => ¬ n.nodeType = "user")).map
      (decodeAnimeNode ∘ (fun n => ((jsParseIntDec
        (jsSliceFrom n.id 6)).getD 0, n.label))) =
      G.nodes.filter (fun n => ¬ n.nodeType = "user") := by
    have hpt : ∀ n ∈ G.nodes.filter (fun n => ¬ n.nodeType = "user"),
        (decodeAnimeNode ∘ (fun n => ((jsParseIntDec
          (jsSliceFrom n.id 6)).getD 0, n.label))) n = (fun n => n) n := by
      intro n hn
      have hmemf := List.mem_filter.mp hn
      have htyn : ¬ n.nodeType = "user" := by simpa using hmemf.2
      rcases hwf n hmemf.1 with ⟨htyu, _⟩ | ⟨hty, a, hid⟩
      · exact absurd htyu htyn
      · simp only [Function.comp_apply, hid, jsSliceFrom_anime,
          jsParseIntDec_natToString, Option.getD_some, decodeAnimeNode,
          intToString_ofNat]
        calc (⟨"anime:" ++ natToString a, n.label, "anime"⟩ : GraphNode) =
            ⟨n.id, n.label, n.nodeType⟩ := by rw [hid, hty]
          _ = n := rfl
    rw [List.map_congr_left hpt]
    exact List.map_id _
  have hconv : G.nodes.filter (fun n => ¬ n.nodeType = "user") =
      G.nodes.filter (fun n => !(decide (n.nodeType = "user"))) := by
    apply List.filter_congr
    intro n _
    exact decide_not
  refine ⟨?_, ?_, rfl, ?_, ?_, ?_, ?_⟩
  · show (createCompactGraph G).ua.map
        (decodeUAEdge (createCompactGraph G)) ++
      (createCompactGraph G).aa.map
        (decodeAAEdge (createCompactGraph G)) = G.edges
    rw [hCua, hCaa, List.map_map, List.map_map, hedges, hUAeq, hAAeq]
  · show ((createCompactGraph G).userIds.map decodeUserNode ++
      (createCompactGraph G).anime.map decodeAnimeNode).Perm G.nodes
    rw [hCuserIds, hCanime, List.map_map, List.map_map, hUN, hAN, hconv]
    exact List.filter_append_perm _ _
  · show (createCompactGraph G).nodeCount = G.nodes.length
    simp only [createCompactGraph]
    rw [hU, hA]
    simp only [List.length_map]
    exact filter_partition_length G.nodes
  · show (createCompactGraph G).edgeCount = G.edges.length
    simp only [createCompactGraph]
    rw [hfold]
    simp only [List.length_map]
    rw [hedges, List.length_append]
  · show (createCompactGraph G).userCount =
      (G.nodes.filter (fun n => n.nodeType = "user")).length
    simp only [createCompactGraph]
    rw [hU]
    simp only [List.length_map]
  · show (createCompactGraph G).animeCount =
      (G.nodes.filter (fun n => ¬ n.nodeType = "user")).length
    simp only [createCompactGraph]
    rw [hA]
    simp only [List.length_map]

/-- C9: the compact encoding of a graph produced by createGraph is lossless:
the inverse mapping decompactGraph rebuilds the edge list exactly (ids,
endpoints, types, weights), rebuilds the node list up to the order of the
two node families (every node id, label and type is preserved), and
preserves the timestamp and all four counts. -/
theorem c9_compact_roundtrip (gen : String) (users : List UserRatings)
    (mrpu cap : Nat) :
    (decompactGraph (createCompactGraph
        (createGraph gen users mrpu cap).graph)).edges =
      (createGraph gen users mrpu cap).graph.edges ∧
    (decompactGraph (createCompactGraph
        (createGraph gen users mrpu cap).graph)).nodes.Perm
      (createGraph gen users mrpu cap).graph.nodes ∧
    (decompactGraph (createCompactGraph
        (createGraph gen users mrpu cap).graph)).generatedAt =
      (createGraph gen users mrpu cap).graph.generatedAt ∧
    (decompactGraph (createCompactGraph
        (createGraph gen users mrpu cap).graph)).nodeCount =
      (createGraph gen users mrpu cap).graph.nodeCount ∧
    (decompactGraph (createCompactGraph
        (createGraph gen users mrpu cap).graph)).edgeCount =
      (createGraph gen users mrpu cap).graph.edgeCount ∧
    (decompactGraph (createCompactGraph
        (createGraph gen users mrpu cap).graph)).userCount =
      (createGraph gen users mrpu cap).graph.userCount ∧
    (decompactGraph (createCompactGraph
        (createGraph gen users mrpu cap).graph)).animeCount =
      (createGraph gen users mrpu cap).graph.animeCount := by
  have hWF := buildFold_WF mrpu cap users ⟨[], [], ⟨[], 0⟩⟩
    ⟨by simp, by simp [idsOf], by simp, by simp⟩
  rcases hWF with ⟨hwf, _, hes, hpairs⟩
  have hedges : (createGraph gen users mrpu cap).graph.edges =
      (users.foldl (processUser mrpu cap) ⟨[], [], ⟨[], 0⟩⟩).edges ++
      ((users.foldl (processUser mrpu cap)
        ⟨[], [], ⟨[], 0⟩⟩).pairs.weights.map
        (fun p => mkAAEdge p.1 p.2)) := rfl
  have haa2 : ∀ e ∈ ((users.foldl (processUser mrpu cap)
      ⟨[], [], ⟨[], 0⟩⟩).pairs.weights.map (fun p => mkAAEdge p.1 p.2)),
      aaEdgeWF (createGraph gen users mrpu cap).graph.nodes e := by
    intro e he
    rcases List.mem_map.mp he with ⟨p, hp, hpe⟩
    rw [← hpe]
    exact mkAAEdge_WF _ p.1 p.2 (hpairs p hp)
  have hrt := decompact_roundtrip (createGraph gen users mrpu cap).graph
    hwf (users.foldl (processUser mrpu cap) ⟨[], [], ⟨[], 0⟩⟩).edges
    ((users.foldl (processUser mrpu cap)
      ⟨[], [], ⟨[], 0⟩⟩).pairs.weights.map (fun p => mkAAEdge p.1 p.2))
    hedges hes haa2
  rcases hrt with ⟨r1, r2, r3, r4, r5, r6, r7⟩
  refine ⟨r1, r2, r3, ?_, ?_, ?_, ?_⟩
  · rw [r4]
    rfl
  · rw [r5]
    rfl
  · rw [r6]
    rfl
  · rw [r7]
    have hpart := filter_partition_length
      (createGraph gen users mrpu cap).graph.nodes
    have hac : (createGraph gen users mrpu cap).graph.animeCount =
        (createGraph gen users mrpu cap).graph.nodes.length -
        ((createGraph gen users mrpu cap).graph.nodes.filter
          (fun n => n.nodeType = "user")).length := rfl
    omega

end WASIW
